import Mathlib

/-!
Verification development for the Fix-It-Now random-forest core
(`src/scripts/train_model.py`, `src/scripts/verify_model.py`,
`src/api/main.py`).

The Python code is shallowly embedded: Python `float` is modelled by `ℚ`
(the training pipeline only performs field arithmetic and half-even
rounding, which are exact on the rationals it actually produces),
Python `dict`s are modelled by insertion-ordered association lists,
Python exceptions (`KeyError`, `ZeroDivisionError`, `IndexError`) by
`Except String`, and the global pseudo-random generator by an explicit
stream `g : ℕ → ℕ` of draws together with a position that is threaded
through every consumer, so that a fixed seed corresponds to a fixed
stream.
-/

namespace FixItNow

/-- Python `round(x)`: round half to even, returning an integer. -/
def pyRound (q : ℚ) : ℤ :=
  let f := q.floor
  let r := q - f
  if r < 1/2 then f
  else if 1/2 < r then f + 1
  else if f % 2 = 0 then f else f + 1

/-- Python `round(x, 4)`: round half to even at four decimal places. -/
def round4 (q : ℚ) : ℚ := (pyRound (q * 10000) : ℚ) / 10000

/-- Python `round(x, 2)`: round half to even at two decimal places. -/
def round2 (q : ℚ) : ℚ := (pyRound (q * 100) : ℚ) / 100

/-- Insert a rational into an ascending-sorted list (helper for `sortQ`). -/
def insertQ (x : ℚ) : List ℚ → List ℚ
  | [] => [x]
  | y :: ys => if x ≤ y then x :: y :: ys else y :: insertQ x ys

/-- Ascending insertion sort on rationals; models Python `sorted` on floats. -/
def sortQ (l : List ℚ) : List ℚ := l.foldr insertQ []

/-- The sublist of first occurrences of `xs`, in first-encounter order.
Models the iteration order of a Python `dict` / `collections.Counter`
keyed by the elements of `xs`. -/
def firstDedup {α : Type} [DecidableEq α] (xs : List α) : List α :=
  (xs.reverse.dedup).reverse

/-- Model of `collections.Counter(xs)`: the distinct elements of `xs` in
first-encounter order, each paired with its multiplicity in `xs`. -/
def countList (xs : List String) : List (String × ℕ) :=
  (firstDedup xs).map (fun c => (c, xs.count c))

/-- First entry of `l` carrying the maximal value: later entries replace the
current best only on a strictly greater value.  This is both the tie-break of
`Counter.most_common` (stable sort by descending count) and of Python's
`max(d, key=d.get)` (first maximal key in iteration order). -/
def firstMaxEntry (l : List (String × ℕ)) : Option (String × ℕ) :=
  l.foldl (fun best e =>
    match best with
    | none => some e
    | some b => if e.2 > b.2 then some e else some b) none

/-- Model of `Counter(xs).most_common(1)[0][0]` via `firstMaxEntry`. -/
def mostCommon1 (l : List (String × ℕ)) : Option String :=
  (firstMaxEntry l).map (·.1)

/-- Model of `d[k] = d.get(k, 0) + 1` on an insertion-ordered dict of counts:
an existing key is updated in place, a new key is appended. -/
def bumpVote (acc : List (String × ℕ)) (x : String) : List (String × ℕ) :=
  if (acc.lookup x).isSome then
    acc.map (fun e => if e.1 = x then (e.1, e.2 + 1) else e)
  else acc ++ [(x, 1)]

/-- Feature vectors: a Python dict from feature name to numeric value. -/
abbrev Features : Type := List (String × ℚ)

/-- Model of `features.get(name, 0)`: missing features default to `0`. -/
def fget (fs : Features) (k : String) : ℚ := ((fs.lookup k).getD 0)

/-- One training record, as produced by `preprocess_features` / `get_target`:
a numeric feature dict plus the three target fields.  Categorical feature
values are carried by the Python dict but are never consulted by the split
search (`numeric_features` only), so they are not modelled. -/
structure Sample where
  features : Features
  riskLevel : String
  failureProbability : ℚ
  daysToFailure : ℤ
  deriving DecidableEq, Repr

/-- A serialized tree node: `{'type': 'leaf', ...}` or `{'type': 'split', ...}`.
Leaf `probability` is the 4-decimal-rounded mean, `days` the half-even-rounded
integer mean, and a split's stored `threshold` is rounded to 2 decimals, as in
`SimpleRandomForest._build_tree`. -/
inductive TreeNode where
  | leaf (prediction : String) (probability : ℚ) (days : ℤ) (samples : ℕ)
  | split (feature : String) (threshold : ℚ) (left right : TreeNode)
  deriving DecidableEq, Repr

/-- The forest document exported by `SimpleRandomForest.export_to_json`
(metadata is attached separately by `main` and carries no tree content). -/
structure SRF where
  n_trees : ℕ
  trees : List TreeNode
  feature_importances : List (String × ℚ)
  deriving DecidableEq, Repr

/-- The ten numeric feature names hard-coded in `_build_tree`. -/
def numericFeatures : List String :=
  ["asset_age_months", "days_since_last_maintenance", "total_maintenance_count",
   "avg_monthly_usage_hours", "ambient_temperature_avg", "humidity_level_avg",
   "power_outage_events_last_year", "manufacturer_rating", "building_age_years",
   "seasonal_load_factor"]

/-- The local `entropy` of `_calculate_split_gain`:
`-sum((c/total) * (c/total) for c in counts.values() if c > 0)` over the
`risk_level` counts of the subset, and `0` for the empty subset. -/
def entropy (subset : List Sample) : ℚ :=
  if subset.isEmpty then 0
  else
    let total : ℚ := subset.length
    let counts := countList (subset.map (·.riskLevel))
    let s := (((counts.map (·.2)).filter (fun c => 0 < c)).map
        (fun (c : ℕ) => ((c : ℚ)/total) * ((c : ℚ)/total))).sum
    Neg.neg s

/-- `SimpleRandomForest._calculate_split_gain`: partition on
`features.get(feature, 0) < threshold`, return `0` if either side is empty,
else parent entropy minus the size-weighted child entropies. -/
def splitLeft (data : List Sample) (feature : String) (threshold : ℚ) : List Sample :=
  data.filter (fun d => fget d.features feature < threshold)

/-- The comprehension `[d for d in data if d['features'].get(feature, 0) >= threshold]`
(`>=` is the negation of `<` on numbers). -/
def splitRight (data : List Sample) (feature : String) (threshold : ℚ) : List Sample :=
  data.filter (fun d => ¬ (fget d.features feature < threshold))

def calculateSplitGain (data : List Sample) (feature : String) (threshold : ℚ) : ℚ :=
  let left := splitLeft data feature threshold
  let right := splitRight data feature threshold
  if left.isEmpty ∨ right.isEmpty then 0
  else
    entropy data -
      (((left.length : ℚ)/(data.length : ℚ)) * entropy left +
       ((right.length : ℚ)/(data.length : ℚ)) * entropy right)

/-- The `values` list of `_find_best_split`:
`sorted(set(...))` over the numeric values of `feature` among the samples
that carry it (a missing feature contributes nothing, not a `0`). -/
def distinctSortedValues (data : List Sample) (feature : String) : List ℚ :=
  sortQ ((data.filterMap (fun d => d.features.lookup feature)).dedup)

/-- One `gain > best_gain` update step of the `_find_best_split` loops; the
accumulator is `(best (feature, threshold), best_gain)` with
`best_feature`/`best_threshold` set together. -/
def bestStep (data : List Sample) (acc : Option (String × ℚ) × ℚ) (c : String × ℚ) :
    Option (String × ℚ) × ℚ :=
  let gain := calculateSplitGain data c.1 c.2
  if gain > acc.2 then (some c, gain) else acc

/-- The candidate-scanning part of `_find_best_split`, over an already-sampled
feature list: features with fewer than 2 distinct values are skipped; for the
rest the thresholds at the 25th/50th/75th percentile indices
`int(len(values) * p)` (clamped to the last index) are tried in order,
starting from `best_gain = -1`. -/
def findBestSplitOn (data : List Sample) (sampled : List String) :
    Option (String × ℚ) × ℚ :=
  sampled.foldl (fun acc f =>
    let values := distinctSortedValues data f
    if values.length < 2 then acc
    else
      [(1 : ℚ)/4, 1/2, 3/4].foldl (fun acc2 pct =>
        let idx := (((values.length : ℚ) * pct).floor).toNat
        let threshold := values.getD (min idx (values.length - 1)) 0
        bestStep data acc2 (f, threshold)) acc)
    (none, -1)

/-- Model of `random.sample(xs, k)` driven by the draw stream: `k` successive
draws pick (and remove) an element each; returns the picks and the new
stream position. -/
def sampleKStr (g : ℕ → ℕ) : ℕ → ℕ → List String → (List String × ℕ)
  | p, 0, _ => ([], p)
  | p, _ + 1, [] => ([], p)
  | p, k + 1, xs =>
    let i := g p % xs.length
    let x := xs.getD i ""
    let (rest, p') := sampleKStr g (p + 1) k (xs.eraseIdx i)
    (x :: rest, p')

/-- `SimpleRandomForest._find_best_split`: sample `min(5, len(features))`
features without replacement from the draw stream, then scan candidates.
Returns the best `(feature, threshold)` pair, the best gain, and the new
stream position. -/
def findBestSplit (g : ℕ → ℕ) (p : ℕ) (data : List Sample) (features : List String) :
    (Option (String × ℚ) × ℚ) × ℕ :=
  let (sampled, p') := sampleKStr g p (min 5 features.length) features
  (findBestSplitOn data sampled, p')

/-- The leaf constructed by `_build_tree`: majority `risk_level` via
`Counter.most_common` (default `'medium'` on empty data), the
4-decimal-rounded mean `failure_probability` (default `0.5`), the half-even
rounded mean `estimated_days_to_failure` (default `100`), and the subset
size. -/
def leafOf (data : List Sample) : TreeNode :=
  let pred :=
    match mostCommon1 (countList (data.map (·.riskLevel))) with
    | some c => c
    | none => "medium"
  let avgProb : ℚ :=
    if data.isEmpty then 1/2
    else (data.map (·.failureProbability)).sum / (data.length : ℚ)
  let avgDays : ℚ :=
    if data.isEmpty then 100
    else ((data.map (·.daysToFailure)).sum : ℚ) / (data.length : ℚ)
  .leaf pred (round4 avgProb) (pyRound avgDays) data.length

/-- Model of `d[k] = d.get(k, 0) + gain` on the insertion-ordered
`feature_importances` dict. -/
def updateImp (imp : List (String × ℚ)) (k : String) (gain : ℚ) :
    List (String × ℚ) :=
  if (imp.lookup k).isSome then
    imp.map (fun e => if e.1 = k then (e.1, e.2 + gain) else e)
  else imp ++ [(k, gain)]

/-- `SimpleRandomForest._build_tree`, with `max_depth - depth` as structural
fuel (the code recurses with `depth + 1` and stops at `depth >= max_depth`,
so the remaining depth budget decreases).  State threaded through: the draw
stream position and the mutable `self.feature_importances`. -/
def buildTreeAux (g : ℕ → ℕ) :
    ℕ → ℕ → List Sample → List (String × ℚ) → TreeNode × ℕ × List (String × ℚ)
  | 0, p, data, imp => (leafOf data, p, imp)
  | fuel + 1, p, data, imp =>
    if data.length < 10 then (leafOf data, p, imp)
    else
      let r := findBestSplit g p data numericFeatures
      let p' := r.2
      match r.1.1 with
      | none => (leafOf data, p', imp)
      | some (bf, bt) =>
        let gain := r.1.2
        if gain < 1/1000 then (leafOf data, p', imp)
        else
          let imp' := updateImp imp bf gain
          let leftData := splitLeft data bf bt
          let rightData := splitRight data bf bt
          let lres := buildTreeAux g fuel p' leftData imp'
          let rres := buildTreeAux g fuel lres.2.1 rightData lres.2.2
          (.split bf (round2 bt) lres.1 rres.1, rres.2.1, rres.2.2)

/-- `_build_tree(data, depth, max_depth)` wrapper: `depth >= max_depth`
corresponds to zero remaining fuel. -/
def buildTree (g : ℕ → ℕ) (p : ℕ) (data : List Sample) (depth maxDepth : ℕ)
    (imp : List (String × ℚ)) : TreeNode × ℕ × List (String × ℚ) :=
  buildTreeAux g (maxDepth - depth) p data imp

/-- Model of `random.choices(data, k=len(data))` (the bootstrap draw): one
stream draw per picked element; an empty population yields `k = 0` and the
empty sample. -/
def choicesSelf (g : ℕ → ℕ) (p : ℕ) (data : List Sample) : List Sample :=
  if data.isEmpty then []
  else
    (List.range data.length).map
      (fun i => data.getD (g (p + i) % data.length) ⟨[], "", 0, 0⟩)

/-- The tree-building loop of `SimpleRandomForest.fit`: for each of the
`n_trees` iterations, draw a bootstrap sample and build one tree, threading
the stream position and the importance accumulator. -/
def fitAux (g : ℕ → ℕ) (data : List Sample) :
    ℕ → ℕ → List (String × ℚ) → List TreeNode × ℕ × List (String × ℚ)
  | _, 0, imp => ([], 0, imp)
  | p, k + 1, imp =>
    let sample := choicesSelf g p data
    let tres := buildTree g (p + data.length) sample 0 5 imp
    let rres := fitAux g data tres.2.1 k tres.2.2
    (tres.1 :: rres.1, rres.2.1, rres.2.2)

/-- `SimpleRandomForest.fit` followed by `export_to_json`: build `n_trees`
trees from position `0` of the draw stream, then normalize the accumulated
feature importances by their total when that total is positive. -/
def fit (g : ℕ → ℕ) (nTrees : ℕ) (data : List Sample) : SRF :=
  let r := fitAux g data 0 nTrees []
  let imp := r.2.2
  let total := (imp.map (·.2)).sum
  let imp' := if 0 < total then imp.map (fun e => (e.1, e.2 / total)) else imp
  ⟨nTrees, r.1, imp'⟩

/-! ## Inference engines on well-formed trees

`SimpleRandomForest._predict_tree` / `predict` (trainer, `train_model.py`),
`predict_tree` / `predict` (`verify_model.py`) and
`predict_tree` / `make_prediction` (`api/main.py`) all traverse the same
tree dictionaries; on a well-formed document the dictionaries are exactly
`TreeNode`s. -/

/-- The payload of the leaf dict returned by any of the `predict_tree`
traversals. -/
structure LeafR where
  prediction : String
  probability : ℚ
  days : ℤ
  deriving DecidableEq, Repr

/-- The `{risk_level, failure_probability, estimated_days_to_failure}`
output struct shared by all three predictors. -/
structure Pred where
  risk_level : String
  failure_probability : ℚ
  estimated_days_to_failure : ℤ
  deriving DecidableEq, Repr

/-- Tree traversal shared verbatim by all three engines: at a split go left
iff `features.get(feature, 0) < threshold`, else right. -/
def predictTree (t : TreeNode) (f : Features) : LeafR :=
  match t with
  | .leaf pr pb dy _ => ⟨pr, pb, dy⟩
  | .split ft th l r => if fget f ft < th then predictTree l f else predictTree r f

/-- The leaf `prediction` labels collected over a forest for a feature
vector (the generator `p['prediction'] for p in predictions`). -/
def leafRisks (trees : List TreeNode) (f : Features) : List String :=
  (trees.map (predictTree · f)).map (·.prediction)

/-- `SimpleRandomForest.predict`: majority vote via
`Counter.most_common(1)`, mean probability rounded to 4 decimals, half-even
rounded mean days.  On an empty forest Python raises `ZeroDivisionError`
at `avg_prob = sum(...)/len(predictions)` (before `most_common` runs);
the `IndexError` branch is unreachable for a non-empty forest. -/
def trainerPredict (trees : List TreeNode) (f : Features) : Except String Pred :=
  let preds := trees.map (predictTree · f)
  if preds.isEmpty then .error "ZeroDivisionError"
  else
    match mostCommon1 (countList (preds.map (·.prediction))) with
    | none => .error "IndexError"
    | some risk =>
      .ok ⟨risk, round4 ((preds.map (·.probability)).sum / (preds.length : ℚ)),
           pyRound (((preds.map (·.days)).sum : ℚ) / (preds.length : ℚ))⟩

/-- The output dict of `verify_model.predict`, which additionally carries
`vote_distribution`. -/
structure VPred where
  risk_level : String
  failure_probability : ℚ
  estimated_days_to_failure : ℤ
  vote_distribution : List (String × ℕ)
  deriving DecidableEq, Repr

/-- Drop the `vote_distribution` field. -/
def VPred.core (v : VPred) : Pred :=
  ⟨v.risk_level, v.failure_probability, v.estimated_days_to_failure⟩

/-- `verify_model.predict`: the same aggregation as the trainer's
`predict`, plus the vote distribution `dict(risk_votes)`. -/
def verifyPredict (trees : List TreeNode) (f : Features) : Except String VPred :=
  let preds := trees.map (predictTree · f)
  if preds.isEmpty then .error "ZeroDivisionError"
  else
    let votes := countList (preds.map (·.prediction))
    match mostCommon1 votes with
    | none => .error "IndexError"
    | some risk =>
      .ok ⟨risk, round4 ((preds.map (·.probability)).sum / (preds.length : ℚ)),
           pyRound (((preds.map (·.days)).sum : ℚ) / (preds.length : ℚ)), votes⟩

/-- The model-backed branch of `main.make_prediction`: the vote dict is
initialized to `{'low': 0, 'medium': 0, 'high': 0}` in that insertion
order, each leaf bumps `votes[risk] = votes.get(risk, 0) + 1`, and
`max(votes, key=votes.get)` picks the first maximal key in iteration
order.  Division by `len(predictions)` raises on an empty forest. -/
def apiPredict (trees : List TreeNode) (f : Features) : Except String Pred :=
  let preds := trees.map (predictTree · f)
  let votes := preds.foldl (fun v p => bumpVote v p.prediction)
    [("low", 0), ("medium", 0), ("high", 0)]
  let risk := ((firstMaxEntry votes).map (·.1)).getD ""
  if preds.isEmpty then .error "ZeroDivisionError"
  else
    .ok ⟨risk, round4 ((preds.map (·.probability)).sum / (preds.length : ℚ)),
         pyRound (((preds.map (·.days)).sum : ℚ) / (preds.length : ℚ))⟩

/-! ## Raw (possibly malformed) forest documents

A deserialized JSON node is a dict that may be missing any of the fields
the engines touch.  `RawNode.missing` marks the absence of a `left`/`right`
key on the parent dict (real JSON cannot contain such a value; accessing it
is modelled as the corresponding `KeyError`). -/

/-- A raw deserialized tree-node dict with every engine-touched field
optional. -/
inductive RawNode where
  | node (type? : Option String) (prediction? : Option String)
         (probability? : Option ℚ) (days? : Option ℚ)
         (feature? : Option String) (threshold? : Option ℚ)
         (left right : RawNode)
  | missing
  deriving DecidableEq, Repr

/-- The `type` field of a raw node. -/
def RawNode.typeF : RawNode → Option String
  | .node t _ _ _ _ _ _ _ => t
  | .missing => none

/-- The `prediction` field of a raw node. -/
def RawNode.predictionF : RawNode → Option String
  | .node _ pr _ _ _ _ _ _ => pr
  | .missing => none

/-- The `probability` field of a raw node. -/
def RawNode.probabilityF : RawNode → Option ℚ
  | .node _ _ pb _ _ _ _ _ => pb
  | .missing => none

/-- The `days` field of a raw node. -/
def RawNode.daysF : RawNode → Option ℚ
  | .node _ _ _ dy _ _ _ _ => dy
  | .missing => none

/-- `predict_tree` of `verify_model.py` and of `api/main.py` (textually
identical in the two files), on raw nodes: `tree['type']` raises on a
missing key; any tag other than `'leaf'` is traversed as a split, raising
on a missing `feature`, `threshold`, or the child field of the taken
branch. -/
def predictTreeRaw : RawNode → Features → Except String RawNode
  | .missing, _ => .error "KeyError: type"
  | .node none _ _ _ _ _ _ _, _ => .error "KeyError: type"
  | .node (some ty) pr pb dy ft th l r, f =>
    if ty = "leaf" then .ok (.node (some ty) pr pb dy ft th l r)
    else
      match ft with
      | none => .error "KeyError: feature"
      | some feat =>
        match th with
        | none => .error "KeyError: threshold"
        | some thr =>
          if fget f feat < thr then
            match l with
            | .missing => .error "KeyError: left"
            | l' => predictTreeRaw l' f
          else
            match r with
            | .missing => .error "KeyError: right"
            | r' => predictTreeRaw r' f

/-- Error-propagating `map` over a list (a Python loop or comprehension in
which each step may raise). -/
def mapE {α β : Type} (g : α → Except String β) : List α → Except String (List β)
  | [] => .ok []
  | x :: xs => do
    let y ← g x
    let ys ← mapE g xs
    .ok (y :: ys)

/-- `verify_model.predict` on a raw document.  Python's evaluation order:
the `Counter` over `p['prediction']` is built first (raising `KeyError` on
a missing `prediction`), then `avg_prob` (KeyError on `probability`, then
`ZeroDivisionError` on an empty forest), then `avg_days` (KeyError on
`days`); `most_common` cannot fail afterwards on a non-empty forest. -/
def verifyPredictRaw (trees : List RawNode) (f : Features) : Except String VPred := do
  let preds ← mapE (predictTreeRaw · f) trees
  let risks ← mapE (fun p =>
    match p.predictionF with
    | some r => Except.ok r
    | none => Except.error "KeyError: prediction") preds
  let probs ← mapE (fun p =>
    match p.probabilityF with
    | some q => Except.ok q
    | none => Except.error "KeyError: probability") preds
  if preds.isEmpty then Except.error "ZeroDivisionError"
  else do
    let days ← mapE (fun p =>
      match p.daysF with
      | some q => Except.ok q
      | none => Except.error "KeyError: days") preds
    let votes := countList risks
    match mostCommon1 votes with
    | none => Except.error "IndexError"
    | some risk =>
      Except.ok ⟨risk, round4 (probs.sum / (preds.length : ℚ)),
        pyRound (days.sum / (preds.length : ℚ)), votes⟩

/-- The model-backed branch of `main.make_prediction` on a raw document:
the aggregation loop uses `pred.get('prediction', 'medium')`,
`pred.get('probability', 0.5)` and `pred.get('days', 100)`, substituting
defaults for missing leaf fields instead of raising; only the traversal
itself can raise, plus `ZeroDivisionError` on an empty forest. -/
def apiPredictRaw (trees : List RawNode) (f : Features) : Except String Pred := do
  let preds ← mapE (predictTreeRaw · f) trees
  let votes := preds.foldl (fun v p => bumpVote v (p.predictionF.getD "medium"))
    [("low", 0), ("medium", 0), ("high", 0)]
  let totalProb := (preds.map (fun p => p.probabilityF.getD (1/2))).sum
  let totalDays := (preds.map (fun p => p.daysF.getD 100)).sum
  let risk := ((firstMaxEntry votes).map (·.1)).getD ""
  if preds.isEmpty then Except.error "ZeroDivisionError"
  else
    Except.ok ⟨risk, round4 (totalProb / (preds.length : ℚ)),
      pyRound (totalDays / (preds.length : ℚ))⟩

/-! ## Evaluator (`verify_model.main`, the `[4/5]` block, lines 129-191) -/

/-- One test row: the preprocessed numeric features and the ground-truth
`risk_level` column. -/
structure Row where
  features : Features
  riskLevel : String
  deriving DecidableEq, Repr

/-- Model of `d[k] += 1` on a dict with a fixed key set (`risk_total`,
`risk_correct`, a `confusion` row): raises `KeyError` when `k` is not
present. -/
def bumpFixed (m : List (String × ℕ)) (k : String) :
    Except String (List (String × ℕ)) :=
  if (m.lookup k).isSome then
    .ok (m.map (fun e => if e.1 = k then (e.1, e.2 + 1) else e))
  else .error "KeyError"

/-- Dict lookup `d[k]` that raises `KeyError` when absent. -/
def lookupE {β : Type} (m : List (String × β)) (k : String) : Except String β :=
  match m.lookup k with
  | some v => .ok v
  | none => .error "KeyError"

/-- `d.get(k, 0)` on a count dict. -/
def getCount (m : List (String × ℕ)) (k : String) : ℕ := (m.lookup k).getD 0

/-- The mutable evaluation state of the test loop: `correct`,
`risk_correct`, `risk_total` and the 3×3 `confusion` matrix, all keyed by
the fixed class list `['high', 'medium', 'low']`. -/
structure EvalState where
  correct : ℕ
  risk_correct : List (String × ℕ)
  risk_total : List (String × ℕ)
  confusion : List (String × List (String × ℕ))
  deriving DecidableEq, Repr

/-- The initial dicts of the evaluation loop. -/
def initEvalState : EvalState :=
  let z := [("high", 0), ("medium", 0), ("low", 0)]
  ⟨0, z, z, [("high", z), ("medium", z), ("low", z)]⟩

/-- One iteration of the test loop: `risk_total[actual] += 1`, then
`confusion[actual][predicted] += 1`, then on a correct prediction bump
`correct` and `risk_correct[actual]`. -/
def evalStep (st : EvalState) (actual predicted : String) :
    Except String EvalState := do
  let rt ← bumpFixed st.risk_total actual
  let row ← lookupE st.confusion actual
  let row' ← bumpFixed row predicted
  let cf := st.confusion.map (fun e => if e.1 = actual then (e.1, row') else e)
  if predicted = actual then do
    let rc ← bumpFixed st.risk_correct actual
    Except.ok ⟨st.correct + 1, rc, rt, cf⟩
  else
    Except.ok ⟨st.correct, st.risk_correct, rt, cf⟩

/-- Error-propagating left fold (a Python `for` loop whose body may
raise). -/
def foldE {σ α : Type} (g : σ → α → Except String σ) : σ → List α → Except String σ
  | st, [] => .ok st
  | st, x :: xs => do
    let st' ← g st x
    foldE g st' xs

/-- The report printed by `verify_model.main`: overall accuracy, the
per-class accuracy lines (emitted only for classes with
`risk_total[level] > 0`), and per-class precision / recall / F1 with their
zero guards.  All percentages, as in the code. -/
structure EvalReport where
  state : EvalState
  accuracy : ℚ
  perClassAcc : List (String × ℚ)
  prf : List (String × ℚ × ℚ × ℚ)
  deriving DecidableEq, Repr

/-- The fixed class-iteration list `['high', 'medium', 'low']`. -/
def classList : List String := ["high", "medium", "low"]

/-- `pred_total` of one class: the column sum
`sum(confusion[a][level] for a in ['high', 'medium', 'low'])`. -/
def predTotalOf (st : EvalState) (lv : String) : ℕ :=
  (classList.map (fun a => getCount ((st.confusion.lookup a).getD []) lv)).sum

/-- The evaluation block of `verify_model.main` on already-loaded test
rows: predict each row with `verify_model.predict`, accumulate the loop
state, then compute `accuracy = correct / total * 100` (Python raises
`ZeroDivisionError` when the loaded test set is empty — there is no
guard), the guarded per-class accuracy lines, and precision / recall / F1
with `0` fallbacks. -/
def evaluateModel (trees : List TreeNode) (rows : List Row) :
    Except String EvalReport := do
  let pairs ← mapE (fun row => do
    let pred ← verifyPredict trees row.features
    Except.ok (row.riskLevel, pred.risk_level)) rows
  let st ← foldE (fun s pr => evalStep s pr.1 pr.2) initEvalState pairs
  let total := rows.length
  if total = 0 then Except.error "ZeroDivisionError"
  else
    let accuracy := (st.correct : ℚ) / (total : ℚ) * 100
    let perClassAcc := classList.filterMap (fun lv =>
      if 0 < getCount st.risk_total lv then
        some (lv, (getCount st.risk_correct lv : ℚ) /
          (getCount st.risk_total lv : ℚ) * 100)
      else none)
    let prf := classList.map (fun lv =>
      let predTotal := predTotalOf st lv
      let precision : ℚ :=
        if 0 < predTotal then
          (getCount ((st.confusion.lookup lv).getD []) lv : ℚ) /
            (predTotal : ℚ) * 100
        else 0
      let rcall : ℚ :=
        if 0 < getCount st.risk_total lv then
          (getCount st.risk_correct lv : ℚ) /
            (getCount st.risk_total lv : ℚ) * 100
        else 0
      let f1 : ℚ :=
        if 0 < precision + rcall then
          2 * precision * rcall / (precision + rcall)
        else 0
      (lv, precision, rcall, f1))
    Except.ok ⟨st, accuracy, perClassAcc, prf⟩

/-! ## Serialization (`export_to_json` + `json.dump`)

`json.dump` of the exported dict is a pure function of the forest
document; the serializer below is a deterministic stand-in for it that
prints every field of the document. -/

/-- Decimal string of an integer. -/
def intStr (i : ℤ) : String := toString i

/-- Canonical string of a rational number. -/
def ratStr (q : ℚ) : String := intStr q.num ++ "/" ++ toString q.den

/-- Serialize one tree node. -/
def treeStr : TreeNode → String
  | .leaf pr pb dy s =>
    "\x7btype:leaf,prediction:" ++ pr ++ ",probability:" ++ ratStr pb ++
      ",days:" ++ intStr dy ++ ",samples:" ++ toString s ++ "\x7d"
  | .split ft th l r =>
    "\x7btype:split,feature:" ++ ft ++ ",threshold:" ++ ratStr th ++
      ",left:" ++ treeStr l ++ ",right:" ++ treeStr r ++ "\x7d"

/-- Serialize a list of printed items. -/
def listStr (items : List String) : String :=
  "[" ++ String.intercalate "," items ++ "]"

/-- Serialize the whole exported document
`{model_type, n_trees, trees, feature_importances}`. -/
def serializeSRF (m : SRF) : String :=
  "\x7bmodel_type:random_forest,n_trees:" ++ toString m.n_trees ++
    ",trees:" ++ listStr (m.trees.map treeStr) ++
    ",feature_importances:\x7b" ++
    String.intercalate ","
      (m.feature_importances.map (fun e => e.1 ++ ":" ++ ratStr e.2)) ++
    "\x7d\x7d"

/-! ## Infrastructure lemmas -/

theorem mem_firstDedup {α : Type} [DecidableEq α] {a : α} {xs : List α} :
    a ∈ firstDedup xs ↔ a ∈ xs := by
  simp [firstDedup, List.mem_dedup]

theorem nodup_firstDedup {α : Type} [DecidableEq α] (xs : List α) :
    (firstDedup xs).Nodup := by
  simpa [firstDedup] using (List.nodup_dedup xs.reverse)

theorem firstDedup_eq_nil {α : Type} [DecidableEq α] {xs : List α} :
    firstDedup xs = [] ↔ xs = [] := by
  constructor
  · intro h
    cases xs with
    | nil => rfl
    | cons x xs =>
      exact absurd (mem_firstDedup.2 (List.mem_cons_self x xs)) (by simp [h])
  · intro h
    simp [h, firstDedup]

theorem firstDedup_perm_dedup {α : Type} [DecidableEq α] (xs : List α) :
    List.Perm (firstDedup xs) xs.dedup :=
  (List.perm_ext_iff_of_nodup (nodup_firstDedup xs) (List.nodup_dedup xs)).2
    (fun a => by simp [mem_firstDedup, List.mem_dedup])

theorem countList_sum_values (xs : List String) :
    ((countList xs).map (·.2)).sum = xs.length := by
  have h1 : ((countList xs).map (·.2)) = (firstDedup xs).map (fun c => xs.count c) := by
    simp [countList]
  have h2 : List.Perm ((firstDedup xs).map (fun c => xs.count c))
      (xs.dedup.map (fun c => xs.count c)) :=
    (firstDedup_perm_dedup xs).map _
  rw [h1, h2.sum_eq]
  exact List.sum_map_count_dedup_eq_length xs

theorem countList_mem_val {xs : List String} {e : String × ℕ}
    (h : e ∈ countList xs) : e.2 = xs.count e.1 ∧ e.1 ∈ xs := by
  rcases List.mem_map.1 h with ⟨c, hc, rfl⟩
  exact ⟨rfl, mem_firstDedup.1 hc⟩

theorem countList_mem_of_mem {xs : List String} {c : String} (h : c ∈ xs) :
    (c, xs.count c) ∈ countList xs :=
  List.mem_map.2 ⟨c, mem_firstDedup.2 h, rfl⟩

theorem countList_eq_nil {xs : List String} : countList xs = [] ↔ xs = [] := by
  simp [countList, firstDedup_eq_nil]

theorem firstMaxEntry_aux (l : List (String × ℕ)) (b : String × ℕ) :
    ∃ r, (l.foldl (fun best e =>
        match best with
        | none => some e
        | some b => if e.2 > b.2 then some e else some b) (some b)) = some r ∧
      (r = b ∨ r ∈ l) ∧ b.2 ≤ r.2 ∧ ∀ e ∈ l, e.2 ≤ r.2 := by
  induction l generalizing b with
  | nil => exact ⟨b, rfl, Or.inl rfl, le_refl _, by simp⟩
  | cons x xs ih =>
    by_cases hx : x.2 > b.2
    · rcases ih x with ⟨r, hr, hmem, hle, hub⟩
      refine ⟨r, by simpa [hx] using hr, ?_, le_of_lt (lt_of_lt_of_le hx hle), ?_⟩
      · rcases hmem with h | h
        · exact Or.inr (h ▸ List.mem_cons_self x xs)
        · exact Or.inr (List.mem_cons_of_mem x h)
      · intro e he
        rcases List.mem_cons.1 he with rfl | he
        · exact hle
        · exact hub e he
    · rcases ih b with ⟨r, hr, hmem, hle, hub⟩
      refine ⟨r, by simpa [hx] using hr, ?_, hle, ?_⟩
      · rcases hmem with h | h
        · exact Or.inl h
        · exact Or.inr (List.mem_cons_of_mem x h)
      · intro e he
        rcases List.mem_cons.1 he with rfl | he
        · exact le_trans (le_of_not_lt hx) hle
        · exact hub e he

theorem firstMaxEntry_spec {l : List (String × ℕ)} (h : l ≠ []) :
    ∃ r, firstMaxEntry l = some r ∧ r ∈ l ∧ ∀ e ∈ l, e.2 ≤ r.2 := by
  cases l with
  | nil => exact absurd rfl h
  | cons x xs =>
    rcases firstMaxEntry_aux xs x with ⟨r, hr, hmem, hle, hub⟩
    refine ⟨r, hr, ?_, ?_⟩
    · rcases hmem with rfl | hm
      · exact List.mem_cons_self _ _
      · exact List.mem_cons_of_mem _ hm
    · intro e he
      rcases List.mem_cons.1 he with rfl | he2
      · exact hle
      · exact hub e he2

theorem firstMaxEntry_dominant {l : List (String × ℕ)} {k : String} {v : ℕ}
    (hmem : (k, v) ∈ l) (hub : ∀ e ∈ l, e.2 ≤ v)
    (huniq : ∀ e ∈ l, e.2 = v → e.1 = k) :
    (firstMaxEntry l).map (·.1) = some k := by
  have hne : l ≠ [] := by rintro rfl; simp at hmem
  rcases firstMaxEntry_spec hne with ⟨r, hr, hrmem, hrub⟩
  have h1 : r.2 ≤ v := hub r hrmem
  have h2 : v ≤ r.2 := hrub (k, v) hmem
  have : r.1 = k := huniq r hrmem (le_antisymm h1 h2)
  rw [hr]
  simp [this]

theorem length_filter_partition {α : Type} (p : α → Prop) [DecidablePred p]
    (l : List α) :
    (l.filter (fun x => p x)).length + (l.filter (fun x => ¬ p x)).length
      = l.length := by
  induction l with
  | nil => rfl
  | cons x xs ih =>
    by_cases hx : p x <;> simp [List.filter_cons, hx, ← ih] <;> omega

/-! ## Entropy and split-gain lemmas -/

/-- Number of samples of a subset carrying the class label `c`. -/
def countOf (s : List Sample) (c : String) : ℕ := (s.map (·.riskLevel)).count c

/-- Impurity as the specification states it: `-Σ (count_c/total)^2` over the
distinct `risk_level` classes present in the subset. -/
def impuritySpec (s : List Sample) : ℚ :=
  Neg.neg ((((s.map (·.riskLevel)).dedup).map
    (fun c => ((countOf s c : ℚ) / (s.length : ℚ)) ^ 2)).sum)

theorem sum_nonneg_of_nonneg {l : List ℚ} (h : ∀ x ∈ l, 0 ≤ x) : 0 ≤ l.sum := by
  induction l with
  | nil => simp
  | cons x xs ih =>
    simp only [List.sum_cons]
    have hx := h x (List.mem_cons_self _ _)
    have := ih (fun y hy => h y (List.mem_cons_of_mem _ hy))
    linarith

theorem sum_pos_of_mem {l : List ℚ} {x : ℚ} (hmem : x ∈ l) (hx : 0 < x)
    (h : ∀ y ∈ l, 0 ≤ y) : 0 < l.sum := by
  induction l with
  | nil => simp at hmem
  | cons a as ih =>
    simp only [List.sum_cons]
    rcases List.mem_cons.1 hmem with rfl | hm
    · have := sum_nonneg_of_nonneg (fun y hy => h y (List.mem_cons_of_mem _ hy))
      linarith
    · have ha := h a (List.mem_cons_self _ _)
      have := ih hm (fun y hy => h y (List.mem_cons_of_mem _ hy))
      linarith

theorem sum_map_div (l : List ℚ) (t : ℚ) :
    (l.map (fun x => x / t)).sum = l.sum / t := by
  induction l with
  | nil => simp
  | cons x xs ih => simp [ih, add_div]

/-- Normal form of `entropy` on a non-empty subset: minus the sum, over the
distinct classes in first-encounter order, of squared class frequencies. -/
theorem entropy_eq_sum {s : List Sample} (hs : s ≠ []) :
    entropy s = Neg.neg (((firstDedup (s.map (·.riskLevel))).map
      (fun c => ((countOf s c : ℚ) / (s.length : ℚ)) *
                ((countOf s c : ℚ) / (s.length : ℚ)))).sum) := by
  have hemp : s.isEmpty = false := by simp [hs]
  unfold entropy
  rw [hemp]
  simp only [Bool.false_eq_true, if_false]
  have hfil : (((countList (s.map (·.riskLevel))).map (·.2)).filter
      (fun c => 0 < c)) = (countList (s.map (·.riskLevel))).map (·.2) := by
    rw [List.filter_eq_self]
    intro a ha
    rcases List.mem_map.1 ha with ⟨e, he, rfl⟩
    rcases countList_mem_val he with ⟨hv, hm⟩
    have : 0 < e.2 := by rw [hv]; exact List.count_pos_iff.2 hm
    simpa using this
  rw [hfil]
  unfold countList
  rw [List.map_map, List.map_map]
  rfl

theorem entropy_eq_impuritySpec (s : List Sample) : entropy s = impuritySpec s := by
  by_cases hs : s = []
  · simp [hs, entropy, impuritySpec]
  · rw [entropy_eq_sum hs]
    unfold impuritySpec
    congr 1
    have hfun : (fun c => ((countOf s c : ℚ) / (s.length : ℚ)) *
          ((countOf s c : ℚ) / (s.length : ℚ))) =
        (fun c => ((countOf s c : ℚ) / (s.length : ℚ)) ^ 2) := by
      funext c
      rw [pow_two]
    rw [hfun]
    exact ((firstDedup_perm_dedup (s.map (·.riskLevel))).map
      (fun c => ((countOf s c : ℚ) / (s.length : ℚ)) ^ 2)).sum_eq

theorem entropy_nonpos (s : List Sample) : entropy s ≤ 0 := by
  by_cases hs : s = []
  · simp [hs, entropy]
  · rw [entropy_eq_sum hs]
    have h0 : (0:ℚ) ≤ (((firstDedup (s.map (·.riskLevel))).map
        (fun c => ((countOf s c : ℚ) / (s.length : ℚ)) *
                  ((countOf s c : ℚ) / (s.length : ℚ)))).sum) := by
      apply sum_nonneg_of_nonneg
      intro x hx
      rcases List.mem_map.1 hx with ⟨c, _, rfl⟩
      exact mul_self_nonneg _
    exact neg_nonpos.2 h0

/-- The class counts of a subset sum to its size. -/
theorem sum_countOf (s : List Sample) :
    ((firstDedup (s.map (·.riskLevel))).map (fun c => countOf s c)).sum
      = s.length := by
  have h := countList_sum_values (s.map (·.riskLevel))
  unfold countList at h
  rw [List.map_map] at h
  simpa [countOf] using h

theorem neg_one_le_entropy (s : List Sample) : -1 ≤ entropy s := by
  by_cases hs : s = []
  · simp [hs, entropy]
  · rw [entropy_eq_sum hs]
    have hlen : 0 < (s.length : ℚ) := by
      have : 0 < s.length := List.length_pos.2 hs
      exact_mod_cast this
    have hub : ∀ c ∈ firstDedup (s.map (·.riskLevel)),
        ((countOf s c : ℚ) / (s.length : ℚ)) *
          ((countOf s c : ℚ) / (s.length : ℚ)) ≤
          (countOf s c : ℚ) / (s.length : ℚ) := by
      intro c hc
      have h1 : countOf s c ≤ s.length := by
        have := List.count_le_length c (s.map (·.riskLevel))
        simpa [countOf] using this
      have h2 : (0:ℚ) ≤ (countOf s c : ℚ) / (s.length : ℚ) :=
        div_nonneg (by positivity) (le_of_lt hlen)
      have h3 : (countOf s c : ℚ) / (s.length : ℚ) ≤ 1 := by
        rw [div_le_one hlen]
        exact_mod_cast h1
      nlinarith
    have hcmp := List.sum_le_sum hub
    have hsum1 : ((firstDedup (s.map (·.riskLevel))).map
        (fun c => (countOf s c : ℚ) / (s.length : ℚ))).sum = 1 := by
      have h1 : ((firstDedup (s.map (·.riskLevel))).map
          (fun c => (countOf s c : ℚ) / (s.length : ℚ))) =
          (((firstDedup (s.map (·.riskLevel))).map
            (fun c => (countOf s c : ℚ))).map (fun x => x / (s.length : ℚ))) := by
        rw [List.map_map]; rfl
      rw [h1, sum_map_div]
      have h2 : ((firstDedup (s.map (·.riskLevel))).map
          (fun c => (countOf s c : ℚ))).sum =
          ((((firstDedup (s.map (·.riskLevel))).map
            (fun c => countOf s c)).sum : ℕ) : ℚ) := by
        rw [Nat.cast_list_sum, List.map_map]; rfl
      rw [h2, sum_countOf]
      field_simp
    rw [hsum1] at hcmp
    linarith

theorem entropy_neg_of_ne_nil {s : List Sample} (hs : s ≠ []) : entropy s < 0 := by
  rw [entropy_eq_sum hs]
  have hlen : 0 < (s.length : ℚ) := by
    have : 0 < s.length := List.length_pos.2 hs
    exact_mod_cast this
  have hfd : firstDedup (s.map (·.riskLevel)) ≠ [] := by
    rw [Ne, firstDedup_eq_nil]
    simp [hs]
  rcases List.exists_mem_of_ne_nil _ hfd with ⟨c, hc⟩
  have hcnt : 0 < countOf s c := by
    have : c ∈ s.map (·.riskLevel) := mem_firstDedup.1 hc
    exact List.count_pos_iff.2 this
  have hterm : (0:ℚ) < ((countOf s c : ℚ) / (s.length : ℚ)) *
      ((countOf s c : ℚ) / (s.length : ℚ)) := by
    have : (0:ℚ) < (countOf s c : ℚ) / (s.length : ℚ) :=
      div_pos (by exact_mod_cast hcnt) hlen
    nlinarith
  have hsum : (0:ℚ) < (((firstDedup (s.map (·.riskLevel))).map
      (fun c => ((countOf s c : ℚ) / (s.length : ℚ)) *
                ((countOf s c : ℚ) / (s.length : ℚ)))).sum) := by
    apply sum_pos_of_mem (x := ((countOf s c : ℚ) / (s.length : ℚ)) *
      ((countOf s c : ℚ) / (s.length : ℚ)))
    · exact List.mem_map.2 ⟨c, hc, rfl⟩
    · exact hterm
    · intro y hy
      rcases List.mem_map.1 hy with ⟨d, _, rfl⟩
      exact mul_self_nonneg _
  exact neg_neg_of_pos hsum

/-- The two split partitions cover the subset. -/
theorem splitLeft_right_length (data : List Sample) (feature : String)
    (threshold : ℚ) :
    (splitLeft data feature threshold).length +
      (splitRight data feature threshold).length = data.length := by
  induction data with
  | nil => rfl
  | cons d ds ih =>
    simp only [splitLeft, splitRight, List.filter_cons, decide_eq_true_eq] at ih ⊢
    by_cases h : fget d.features feature < threshold
    · rw [if_pos h, if_neg (fun hh => hh h)]
      simp only [List.length_cons]
      omega
    · rw [if_neg h, if_pos h]
      simp only [List.length_cons]
      omega

/-- Every gain computed by the split evaluator is strictly above the loop's
initial `best_gain = -1`, so the first candidate always replaces it. -/
theorem calculateSplitGain_gt_neg_one (data : List Sample) (feature : String)
    (threshold : ℚ) : -1 < calculateSplitGain data feature threshold := by
  unfold calculateSplitGain
  by_cases hemp : (splitLeft data feature threshold).isEmpty ∨
      (splitRight data feature threshold).isEmpty
  · rw [if_pos hemp]; norm_num
  · rw [if_neg hemp]
    push_neg at hemp
    rcases hemp with ⟨h1, h2⟩
    have hl : splitLeft data feature threshold ≠ [] := by
      intro h; exact h1 (by simp [h])
    have hr : splitRight data feature threshold ≠ [] := by
      intro h; exact h2 (by simp [h])
    have hln : 0 < (splitLeft data feature threshold).length :=
      List.length_pos.2 hl
    have hrn : 0 < (splitRight data feature threshold).length :=
      List.length_pos.2 hr
    have hpart : (splitLeft data feature threshold).length +
        (splitRight data feature threshold).length = data.length :=
      splitLeft_right_length data feature threshold
    have hdn : 0 < data.length := by omega
    have hlq : (0:ℚ) < ((splitLeft data feature threshold).length : ℚ) /
        (data.length : ℚ) :=
      div_pos (by exact_mod_cast hln) (by exact_mod_cast hdn)
    have hrq : (0:ℚ) < ((splitRight data feature threshold).length : ℚ) /
        (data.length : ℚ) :=
      div_pos (by exact_mod_cast hrn) (by exact_mod_cast hdn)
    have hEl : entropy (splitLeft data feature threshold) < 0 :=
      entropy_neg_of_ne_nil hl
    have hEr : entropy (splitRight data feature threshold) < 0 :=
      entropy_neg_of_ne_nil hr
    have hEd : -1 ≤ entropy data := neg_one_le_entropy data
    nlinarith
/-! ## C2: the split evaluator -/

/-- C2: for every data subset and candidate `(feature, threshold)` pair, the
split evaluator returns gain `0` when the left partition (feature value
`< threshold`, missing values defaulting to `0`) or the right partition is
empty, and otherwise parent impurity minus the size-weighted average of the
two children's impurities, where the impurity of a subset is
`-Σ (count_c/total)^2` over the `risk_level` classes present in it
(squared probabilities, not logarithmic Shannon entropy). -/
theorem C2_split_gain (data : List Sample) (feature : String) (threshold : ℚ) :
    (splitLeft data feature threshold = [] ∨ splitRight data feature threshold = [] →
      calculateSplitGain data feature threshold = 0) ∧
    (splitLeft data feature threshold ≠ [] → splitRight data feature threshold ≠ [] →
      calculateSplitGain data feature threshold =
        impuritySpec data -
          (((splitLeft data feature threshold).length : ℚ) / (data.length : ℚ) *
              impuritySpec (splitLeft data feature threshold) +
           ((splitRight data feature threshold).length : ℚ) / (data.length : ℚ) *
              impuritySpec (splitRight data feature threshold))) := by
  constructor
  · intro h
    unfold calculateSplitGain
    have : (splitLeft data feature threshold).isEmpty ∨
        (splitRight data feature threshold).isEmpty := by
      rcases h with h | h <;> simp [h]
    rw [if_pos this]
  · intro h1 h2
    unfold calculateSplitGain
    have : ¬ ((splitLeft data feature threshold).isEmpty ∨
        (splitRight data feature threshold).isEmpty) := by
      simp [List.isEmpty_iff, h1, h2]
    rw [if_neg this]
    rw [entropy_eq_impuritySpec, entropy_eq_impuritySpec, entropy_eq_impuritySpec]

/-- Concrete data for the C2 witness: one sample on each side of the
threshold `3/2` on `asset_age_months`. -/
def c2Data : List Sample :=
  [⟨[("asset_age_months", 1)], "low", 1/2, 10⟩,
   ⟨[("asset_age_months", 2)], "high", 1/2, 10⟩]

/-- Witness for C2 at concrete input: both partitions are non-empty and the
gain is the impurity difference. -/
theorem C2_split_gain_witness :
    splitLeft c2Data "asset_age_months" (3/2) ≠ [] ∧
    splitRight c2Data "asset_age_months" (3/2) ≠ [] ∧
    calculateSplitGain c2Data "asset_age_months" (3/2) =
      impuritySpec c2Data -
        (((splitLeft c2Data "asset_age_months" (3/2)).length : ℚ) /
            (c2Data.length : ℚ) *
            impuritySpec (splitLeft c2Data "asset_age_months" (3/2)) +
         ((splitRight c2Data "asset_age_months" (3/2)).length : ℚ) /
            (c2Data.length : ℚ) *
            impuritySpec (splitRight c2Data "asset_age_months" (3/2))) :=
  ⟨by with_unfolding_all decide, by with_unfolding_all decide,
   (C2_split_gain c2Data "asset_age_months" (3/2)).2
     (by with_unfolding_all decide) (by with_unfolding_all decide)⟩

/-! ## C6: best-split candidate enumeration and tie-break -/

/-- The candidate thresholds of one feature, as the specification words
them: nothing if the feature contributes fewer than 2 distinct values,
else the deduplicated ascending-sorted values at index
`floor(len(values) * p)` for `p ∈ {0.25, 0.5, 0.75}`, clamped to the last
index. -/
def candidateThresholds (data : List Sample) (f : String) : List ℚ :=
  let values := distinctSortedValues data f
  if values.length < 2 then []
  else [(1 : ℚ)/4, 1/2, 3/4].map (fun pct =>
    values.getD (min ((((values.length : ℚ) * pct).floor).toNat)
      (values.length - 1)) 0)

/-- All candidates of a sampled feature list, in evaluation order. -/
def candidateList (data : List Sample) (sampled : List String) :
    List (String × ℚ) :=
  sampled.flatMap (fun f => (candidateThresholds data f).map (fun t => (f, t)))

/-- The first-found maximal-gain candidate, computed from the right: a later
candidate survives only with a strictly greater gain. -/
def bestCand (data : List Sample) : List (String × ℚ) → Option ((String × ℚ) × ℚ)
  | [] => none
  | c :: cs =>
    let g := calculateSplitGain data c.1 c.2
    match bestCand data cs with
    | none => some (c, g)
    | some (b, gb) => if gb > g then some (b, gb) else some (c, g)

theorem bestCand_eq_none {data : List Sample} {L : List (String × ℚ)} :
    bestCand data L = none ↔ L = [] := by
  cases L with
  | nil => simp [bestCand]
  | cons c cs =>
    simp only [bestCand]
    constructor
    · intro h
      exfalso
      cases hb : bestCand data cs with
      | none => rw [hb] at h; simp at h
      | some b =>
        rw [hb] at h
        rcases b with ⟨b, gb⟩
        by_cases hgt : gb > calculateSplitGain data c.1 c.2 <;> simp [hgt] at h
    · intro h; cases h

/-- The `_find_best_split` loops compute exactly the `bestCand` update of the
incoming accumulator. -/
theorem foldl_bestStep_eq (data : List Sample) (L : List (String × ℚ)) :
    ∀ acc : Option (String × ℚ) × ℚ,
      L.foldl (bestStep data) acc =
        match bestCand data L with
        | none => acc
        | some (b, gb) => if gb > acc.2 then (some b, gb) else acc := by
  induction L with
  | nil => intro acc; rfl
  | cons c cs ih =>
    intro acc
    rw [List.foldl_cons, ih (bestStep data acc c)]
    cases hb : bestCand data cs with
    | none =>
      have hcs : cs = [] := bestCand_eq_none.1 hb
      subst hcs
      simp only [bestCand, bestCand_eq_none.2 rfl]
      unfold bestStep
      by_cases hg : calculateSplitGain data c.1 c.2 > acc.2 <;> simp [hg]
    | some b =>
      rcases b with ⟨b, gb⟩
      simp only [bestCand, hb]
      unfold bestStep
      by_cases h1 : calculateSplitGain data c.1 c.2 > acc.2
      · simp only [h1, if_true]
        by_cases h2 : gb > calculateSplitGain data c.1 c.2
        · have h3 : gb > acc.2 := lt_trans h1 h2
          simp [h2, h3]
        · simp [h2, h1]
      · simp only [h1, if_false]
        by_cases h2 : gb > calculateSplitGain data c.1 c.2
        · simp [h2]
        · have h3 : ¬ gb > acc.2 := by
            push_neg at h1 h2 ⊢
            exact le_trans h2 h1
          simp [h2, h3, h1]

/-- `findBestSplitOn` is the candidate-list fold. -/
theorem findBestSplitOn_eq_fold (data : List Sample) (sampled : List String) :
    findBestSplitOn data sampled =
      (candidateList data sampled).foldl (bestStep data) (none, -1) := by
  suffices h : ∀ acc : Option (String × ℚ) × ℚ,
      sampled.foldl (fun acc f =>
        let values := distinctSortedValues data f
        if values.length < 2 then acc
        else
          [(1 : ℚ)/4, 1/2, 3/4].foldl (fun acc2 pct =>
            let idx := (((values.length : ℚ) * pct).floor).toNat
            let threshold := values.getD (min idx (values.length - 1)) 0
            bestStep data acc2 (f, threshold)) acc) acc =
      (candidateList data sampled).foldl (bestStep data) acc by
    exact h (none, -1)
  induction sampled with
  | nil => intro acc; rfl
  | cons f fs ih =>
    intro acc
    rw [List.foldl_cons]
    show _ = (candidateList data (f :: fs)).foldl (bestStep data) acc
    have hcl : candidateList data (f :: fs) =
        ((candidateThresholds data f).map (fun t => (f, t))) ++
          candidateList data fs := by
      simp [candidateList, List.flatMap]
    rw [hcl, List.foldl_append, ← ih]
    congr 1
    unfold candidateThresholds
    by_cases hlen : (distinctSortedValues data f).length < 2
    · simp [hlen]
    · simp only [hlen, if_false, List.foldl_map]

/-- Decomposition of `bestCand`: the winner is in the list, carries its own
gain, strictly beats every earlier candidate and weakly beats all of them. -/
theorem bestCand_spec (data : List Sample) (L : List (String × ℚ))
    (b : String × ℚ) (gb : ℚ) (h : bestCand data L = some (b, gb)) :
    gb = calculateSplitGain data b.1 b.2 ∧
    ∃ L₁ L₂, L = L₁ ++ b :: L₂ ∧
      (∀ c ∈ L₁, calculateSplitGain data c.1 c.2 < gb) ∧
      (∀ c ∈ L, calculateSplitGain data c.1 c.2 ≤ gb) := by
  induction L generalizing b gb with
  | nil => simp [bestCand] at h
  | cons c cs ih =>
    simp only [bestCand] at h
    cases hb : bestCand data cs with
    | none =>
      have hcs : cs = [] := bestCand_eq_none.1 hb
      subst hcs
      rw [hb] at h
      simp only [Option.some.injEq, Prod.mk.injEq] at h
      rcases h with ⟨rfl, rfl⟩
      refine ⟨rfl, [], [], rfl, by simp, ?_⟩
      intro x hx
      rcases List.mem_cons.1 hx with rfl | hx
      · exact le_refl _
      · simp at hx
    | some p =>
      rcases p with ⟨b2, gb2⟩
      rw [hb] at h
      rcases ih b2 gb2 hb with ⟨hg2, M₁, M₂, hM, hlt, hle⟩
      dsimp only at h
      by_cases hgt : gb2 > calculateSplitGain data c.1 c.2
      · rw [if_pos hgt] at h
        simp only [Option.some.injEq, Prod.mk.injEq] at h
        rcases h with ⟨rfl, rfl⟩
        refine ⟨hg2, c :: M₁, M₂, by rw [hM, List.cons_append], ?_, ?_⟩
        · intro x hx
          rcases List.mem_cons.1 hx with rfl | hx
          · exact hgt
          · exact hlt x hx
        · intro x hx
          rcases List.mem_cons.1 hx with rfl | hx
          · exact le_of_lt hgt
          · exact hle x hx
      · rw [if_neg hgt] at h
        simp only [Option.some.injEq, Prod.mk.injEq] at h
        rcases h with ⟨rfl, rfl⟩
        push_neg at hgt
        refine ⟨rfl, [], cs, rfl, by simp, ?_⟩
        intro x hx
        rcases List.mem_cons.1 hx with rfl | hx
        · exact le_refl _
        · exact le_trans (hle x hx) hgt

/-- C6: for every data subset and sampled feature list, a feature with fewer
than 2 distinct numeric values contributes no candidates; the candidates of
the others are the percentile thresholds of `candidateThresholds`; with no
candidates at all the evaluator returns `(None, None, -1)`; otherwise it
returns the single best `(feature, threshold, gain)` triple over the
candidate list in evaluation order, ties broken by first-found-wins. -/
theorem C6_find_best_split (data : List Sample) (sampled : List String) :
    (candidateList data sampled = [] →
      findBestSplitOn data sampled = (none, -1)) ∧
    (candidateList data sampled ≠ [] →
      ∃ b L₁ L₂, findBestSplitOn data sampled =
          (some b, calculateSplitGain data b.1 b.2) ∧
        candidateList data sampled = L₁ ++ b :: L₂ ∧
        (∀ c ∈ L₁, calculateSplitGain data c.1 c.2 <
          calculateSplitGain data b.1 b.2) ∧
        (∀ c ∈ candidateList data sampled, calculateSplitGain data c.1 c.2 ≤
          calculateSplitGain data b.1 b.2)) := by
  constructor
  · intro h
    rw [findBestSplitOn_eq_fold, h]
    rfl
  · intro h
    cases hb : bestCand data (candidateList data sampled) with
    | none => exact absurd (bestCand_eq_none.1 hb) h
    | some p =>
      rcases p with ⟨b, gb⟩
      rcases bestCand_spec data _ b gb hb with ⟨hg, L₁, L₂, hL, hlt, hle⟩
      subst hg
      refine ⟨b, L₁, L₂, ?_, hL, hlt, hle⟩
      rw [findBestSplitOn_eq_fold, foldl_bestStep_eq data _ (none, -1), hb]
      have hgt : calculateSplitGain data b.1 b.2 > (-1 : ℚ) :=
        calculateSplitGain_gt_neg_one data b.1 b.2
      dsimp only
      rw [if_pos hgt]

/-- Witness for C6 at concrete input: on `c2Data` with the single sampled
feature `asset_age_months` there are candidates, and the returned triple is
the best over them. -/
theorem C6_find_best_split_witness :
    candidateList c2Data ["asset_age_months"] ≠ [] ∧
    ∃ b L₁ L₂, findBestSplitOn c2Data ["asset_age_months"] =
        (some b, calculateSplitGain c2Data b.1 b.2) ∧
      candidateList c2Data ["asset_age_months"] = L₁ ++ b :: L₂ ∧
      (∀ c ∈ L₁, calculateSplitGain c2Data c.1 c.2 <
        calculateSplitGain c2Data b.1 b.2) ∧
      (∀ c ∈ candidateList c2Data ["asset_age_months"],
        calculateSplitGain c2Data c.1 c.2 ≤
          calculateSplitGain c2Data b.1 b.2) :=
  ⟨by with_unfolding_all decide,
   (C6_find_best_split c2Data ["asset_age_months"]).2
     (by with_unfolding_all decide)⟩

/-! ## C4: feature-importance accumulation and normalization -/

theorem updateImp_pos {imp : List (String × ℚ)} {k : String} {gain : ℚ}
    (h : ∀ e ∈ imp, 0 < e.2) (hg : 0 < gain) :
    ∀ e ∈ updateImp imp k gain, 0 < e.2 := by
  intro e he
  unfold updateImp at he
  by_cases hk : (imp.lookup k).isSome
  · rw [if_pos hk] at he
    rcases List.mem_map.1 he with ⟨e0, he0, rfl⟩
    by_cases hek : e0.1 = k
    · rw [if_pos hek]
      exact add_pos (h e0 he0) hg
    · rw [if_neg hek]
      exact h e0 he0
  · rw [if_neg hk] at he
    rcases List.mem_append.1 he with he2 | he2
    · exact h e he2
    · rcases List.mem_singleton.1 he2 with rfl
      exact hg

theorem buildTreeAux_imp_pos (g : ℕ → ℕ) :
    ∀ (fuel p : ℕ) (data : List Sample) (imp : List (String × ℚ)),
      (∀ e ∈ imp, 0 < e.2) →
      ∀ e ∈ (buildTreeAux g fuel p data imp).2.2, 0 < e.2 := by
  intro fuel
  induction fuel with
  | zero =>
    intro p data imp h e he
    exact h e he
  | succ fuel ih =>
    intro p data imp h e he
    simp only [buildTreeAux] at he
    by_cases hlen : data.length < 10
    · rw [if_pos hlen] at he
      exact h e he
    · rw [if_neg hlen] at he
      cases hr : (findBestSplit g p data numericFeatures).1.1 with
      | none =>
        rw [hr] at he
        exact h e he
      | some bft =>
        rcases bft with ⟨bf, bt⟩
        rw [hr] at he
        dsimp only at he
        by_cases hgain : (findBestSplit g p data numericFeatures).1.2 < 1/1000
        · rw [if_pos hgain] at he
          exact h e he
        · rw [if_neg hgain] at he
          dsimp only at he
          have hgpos : 0 < (findBestSplit g p data numericFeatures).1.2 := by
            push_neg at hgain
            linarith
          have h1 : ∀ e2 ∈ updateImp imp bf
              (findBestSplit g p data numericFeatures).1.2, 0 < e2.2 :=
            updateImp_pos h hgpos
          have h2 := ih (findBestSplit g p data numericFeatures).2
            (splitLeft data bf bt) _ h1
          exact ih _ (splitRight data bf bt) _ h2 e he

theorem fitAux_imp_pos (g : ℕ → ℕ) (data : List Sample) :
    ∀ (k p : ℕ) (imp : List (String × ℚ)),
      (∀ e ∈ imp, 0 < e.2) →
      ∀ e ∈ (fitAux g data p k imp).2.2, 0 < e.2 := by
  intro k
  induction k with
  | zero =>
    intro p imp h e he
    exact h e he
  | succ k ih =>
    intro p imp h e he
    simp only [fitAux] at he
    exact ih _ _ (buildTreeAux_imp_pos g 5 _ _ _ h) e he

/-- C4: after `fit` completes, every `feature_importances` value is
non-negative; if at least one split was recorded (the map is non-empty) the
values sum to exactly `1` (each accumulated gain divided by the total);
with no recorded split the map is left empty and sums to `0`. -/
theorem C4_importances (g : ℕ → ℕ) (n : ℕ) (data : List Sample) :
    (∀ v ∈ (fit g n data).feature_importances.map (·.2), 0 ≤ v) ∧
    ((fit g n data).feature_importances ≠ [] →
      ((fit g n data).feature_importances.map (·.2)).sum = 1) ∧
    ((fit g n data).feature_importances = [] →
      ((fit g n data).feature_importances.map (·.2)).sum = 0) := by
  have hpos : ∀ e ∈ (fitAux g data 0 n []).2.2, 0 < e.2 :=
    fitAux_imp_pos g data n 0 [] (by intro e he; simp at he)
  unfold fit
  dsimp only
  cases himp : (fitAux g data 0 n []).2.2 with
  | nil =>
    have htot : ¬ (0 < ((([] : List (String × ℚ))).map (·.2)).sum) := by simp
    rw [if_neg htot]
    refine ⟨by simp, by intro h; exact absurd rfl h, by simp⟩
  | cons e0 rest =>
    rw [himp] at hpos
    have he0 : 0 < e0.2 := hpos e0 (List.mem_cons_self _ _)
    have htot : 0 < (((e0 :: rest)).map (·.2)).sum := by
      apply sum_pos_of_mem (x := e0.2)
      · exact List.mem_map.2 ⟨e0, List.mem_cons_self _ _, rfl⟩
      · exact he0
      · intro y hy
        rcases List.mem_map.1 hy with ⟨e1, he1, rfl⟩
        exact le_of_lt (hpos e1 he1)
    rw [if_pos htot]
    set T := (((e0 :: rest)).map (·.2)).sum with hT
    refine ⟨?_, ?_, ?_⟩
    · intro v hv
      rcases List.mem_map.1 hv with ⟨e1, he1, rfl⟩
      rcases List.mem_map.1 he1 with ⟨e2, he2, rfl⟩
      dsimp only
      exact le_of_lt (div_pos (hpos e2 he2) htot)
    · intro _
      have hmm : ((e0 :: rest).map (fun e => (e.1, e.2 / T))).map (·.2) =
          ((e0 :: rest).map (·.2)).map (fun x => x / T) := by
        rw [List.map_map, List.map_map]
        rfl
      rw [hmm, sum_map_div, ← hT]
      exact div_self (ne_of_gt htot)
    · intro h
      simp at h


/-- Identity draw stream used by concrete witnesses: bootstrap draws pick
each sample once in order, and the first sampled feature is
`asset_age_months`. -/
def gId : ℕ → ℕ := fun i => i

/-- Ten samples splitting cleanly on `asset_age_months` at `5`, enough to
clear the `min_samples_to_split` bar. -/
def c4Data : List Sample :=
  (List.range 10).map (fun i =>
    ⟨[("asset_age_months", (i : ℚ))], if i < 5 then "low" else "high", 1/2, 10⟩)

/-- Witness for C4 at concrete input: training on `c4Data` records a split,
and the normalized importances sum to `1`. -/
theorem C4_importances_witness :
    (fit gId 1 c4Data).feature_importances ≠ [] ∧
    (((fit gId 1 c4Data).feature_importances.map (·.2)).sum = 1) :=
  ⟨by with_unfolding_all decide,
   (C4_importances gId 1 c4Data).2.1 (by with_unfolding_all decide)⟩

/-! ## C7: the empty training set -/

/-- The default leaf emitted over zero samples. -/
theorem leafOf_nil : leafOf [] = TreeNode.leaf "medium" (1/2) 100 0 := by
  with_unfolding_all rfl

theorem fitAux_empty_trees (g : ℕ → ℕ) :
    ∀ (n p : ℕ) (imp : List (String × ℚ)),
      (fitAux g [] p n imp).1 =
        List.replicate n (TreeNode.leaf "medium" (1/2) 100 0) := by
  intro n
  induction n with
  | zero => intro p imp; rfl
  | succ n ih =>
    intro p imp
    have hstep : (fitAux g [] p (n+1) imp).1 =
        leafOf [] :: (fitAux g [] p n imp).1 := rfl
    rw [hstep, leafOf_nil, ih, List.replicate_succ]

/-- C7: on an empty training set `fit` succeeds and produces exactly
`n_trees` trees, each a single leaf with the explicit defaults
`risk_level = medium`, `probability = 0.5`, `days = 100`, sample count 0. -/
theorem C7_fit_empty (g : ℕ → ℕ) (n : ℕ) :
    (fit g n []).n_trees = n ∧
    (fit g n []).trees = List.replicate n (TreeNode.leaf "medium" (1/2) 100 0) := by
  constructor
  · rfl
  · show (fitAux g [] 0 n []).1 = _
    exact fitAux_empty_trees g n 0 []

/-! ## C5: leaf emission conditions of the tree builder -/

/-- The majority class in the words of the specification: scan the distinct
classes in first-encounter order, a later class replacing the current best
only with a strictly greater count. -/
def majorityClassSpec (data : List Sample) : Option String :=
  (firstDedup (data.map (·.riskLevel))).foldl (fun best c =>
    match best with
    | none => some c
    | some b => if countOf data c > countOf data b then some c else some b) none

theorem mostCommon1_eq_majorityClassSpec (data : List Sample) :
    mostCommon1 (countList (data.map (·.riskLevel))) = majorityClassSpec data := by
  unfold mostCommon1 firstMaxEntry countList majorityClassSpec
  rw [List.foldl_map]
  have key : ∀ (cs : List String) (acc : Option String),
      cs.foldl (fun best c =>
        match best with
        | none => some (c, (data.map (·.riskLevel)).count c)
        | some b => if (data.map (·.riskLevel)).count c > b.2 then
            some (c, (data.map (·.riskLevel)).count c) else some b)
        (acc.map (fun c => (c, (data.map (·.riskLevel)).count c))) =
      (cs.foldl (fun best c =>
        match best with
        | none => some c
        | some b => if countOf data c > countOf data b then some c else some b)
        acc).map (fun c => (c, (data.map (·.riskLevel)).count c)) := by
    intro cs
    induction cs with
    | nil => intro acc; rfl
    | cons c cs ih =>
      intro acc
      rw [List.foldl_cons, List.foldl_cons]
      cases acc with
      | none => exact ih (some c)
      | some b =>
        dsimp only [Option.map]
        by_cases hgt : countOf data c > countOf data b
        · rw [if_pos (show (data.map (·.riskLevel)).count c >
              (data.map (·.riskLevel)).count b from hgt), if_pos hgt]
          exact ih (some c)
        · rw [if_neg (show ¬ ((data.map (·.riskLevel)).count c >
              (data.map (·.riskLevel)).count b) from hgt), if_neg hgt]
          exact ih (some b)
  dsimp only
  have h0 := key (firstDedup (data.map (·.riskLevel))) none
  rw [show (Option.map (fun c => (c, (data.map (·.riskLevel)).count c))
      (none : Option String)) = none from rfl] at h0
  rw [h0]
  cases hF : List.foldl (fun best c =>
      match best with
      | none => some c
      | some b => if countOf data c > countOf data b then some c else some b)
      none (firstDedup (data.map (·.riskLevel))) with
  | none => rfl
  | some x => rfl

/-- The leaf summary of a non-empty subset, written as the (amended)
specification describes it. -/
theorem leafOf_ne_nil {data : List Sample} (h : data ≠ []) :
    leafOf data = TreeNode.leaf
      ((majorityClassSpec data).getD "medium")
      (round4 ((data.map (·.failureProbability)).sum / (data.length : ℚ)))
      (pyRound (((data.map (·.daysToFailure)).sum : ℚ) / (data.length : ℚ)))
      data.length := by
  unfold leafOf
  rw [← mostCommon1_eq_majorityClassSpec]
  have hemp : data.isEmpty = false := by simp [h]
  have hcl : countList (data.map (·.riskLevel)) ≠ [] := by
    rw [Ne, countList_eq_nil]
    simp [h]
  rcases firstMaxEntry_spec hcl with ⟨r, hr, _, _⟩
  rw [hemp]
  simp only [Bool.false_eq_true, if_false, mostCommon1, hr, Option.map_some]
  rfl

/-- C5 (amended): whenever `depth >= max_depth` (5), or the subset has fewer
than 10 samples, or the best available gain for the sampled features at the
current draw-stream position is below `0.001`, the tree builder emits a leaf
whose prediction is the majority class (ties first-encountered), whose
probability is the 4-decimal-rounded mean `failure_probability`, whose days
value is the half-even-rounded mean `estimated_days_to_failure`, and whose
sample count is the subset size. -/
theorem C5_leaf_conditions (g : ℕ → ℕ) (p : ℕ) (data : List Sample)
    (depth : ℕ) (imp : List (String × ℚ)) (hne : data ≠ [])
    (hcond : 5 ≤ depth ∨ data.length < 10 ∨
      (findBestSplit g p data numericFeatures).1.2 < 1/1000) :
    (buildTree g p data depth 5 imp).1 =
      TreeNode.leaf
        ((majorityClassSpec data).getD "medium")
        (round4 ((data.map (·.failureProbability)).sum / (data.length : ℚ)))
        (pyRound (((data.map (·.daysToFailure)).sum : ℚ) / (data.length : ℚ)))
        data.length := by
  rw [← leafOf_ne_nil hne]
  unfold buildTree
  by_cases hd : 5 ≤ depth
  · have : 5 - depth = 0 := by omega
    rw [this]
    rfl
  · have hfuel : ∃ fuel, 5 - depth = fuel + 1 := by
      refine ⟨5 - depth - 1, ?_⟩
      omega
    rcases hfuel with ⟨fuel, hfe⟩
    rw [hfe]
    by_cases hlen : data.length < 10
    · simp only [buildTreeAux, hlen, if_true]
    · rcases hcond with h5 | h10 | hg
      · exact absurd h5 hd
      · exact absurd h10 hlen
      · simp only [buildTreeAux, hlen, if_false]
        cases hr : (findBestSplit g p data numericFeatures).1.1 with
        | none => rfl
        | some bft =>
          rcases bft with ⟨bf, bt⟩
          dsimp only
          rw [if_pos hg]

/-- Two-sample data whose mean days-to-failure is the non-integer `3/2`. -/
def c5Data : List Sample := [⟨[], "a", 1/2, 1⟩, ⟨[], "a", 1/2, 2⟩]

/-- Counterexample to C5 as stated: on `c5Data` (2 samples, so the
`len(data) < 10` condition fires) the emitted leaf carries `days = 2`, the
half-even-rounded value, while the mean `estimated_days_to_failure` is
`3/2`; the leaf also rounds the probability to 4 decimals.  The claim
describes the leaf `days` as the (unrounded) mean. -/
theorem C5_counterexample :
    (buildTree gId 0 c5Data 0 5 []).1 = TreeNode.leaf "a" (1/2) 2 2 ∧
    ((c5Data.map (·.daysToFailure)).sum : ℚ) / (c5Data.length : ℚ) = 3/2 ∧
    ((2 : ℤ) : ℚ) ≠ 3/2 := by
  refine ⟨by with_unfolding_all rfl, by with_unfolding_all rfl, by norm_num⟩

/-- Witness for the amended C5 at concrete input. -/
theorem C5_leaf_conditions_witness :
    c5Data ≠ [] ∧
    (buildTree gId 0 c5Data 0 5 []).1 =
      TreeNode.leaf
        ((majorityClassSpec c5Data).getD "medium")
        (round4 ((c5Data.map (·.failureProbability)).sum / (c5Data.length : ℚ)))
        (pyRound (((c5Data.map (·.daysToFailure)).sum : ℚ) / (c5Data.length : ℚ)))
        c5Data.length :=
  ⟨by with_unfolding_all decide,
   C5_leaf_conditions gId 0 c5Data 0 [] (by with_unfolding_all decide)
     (Or.inr (Or.inl (by with_unfolding_all decide)))⟩

/-! ## C10: prediction on an empty forest -/

/-- C10: invoked on an empty forest, both the trainer's `predict` and the
standalone `verify_model.predict` fail (Python raises `ZeroDivisionError`
dividing the probability sum by `len(predictions) = 0`, with the
`most_common` indexing of the empty tally equally unusable); on any
non-empty forest both return a prediction. -/
theorem C10_empty_forest :
    (∀ f : Features, trainerPredict [] f = .error "ZeroDivisionError") ∧
    (∀ f : Features, verifyPredict [] f = .error "ZeroDivisionError") ∧
    (∀ (trees : List TreeNode) (f : Features), trees ≠ [] →
      ∃ r, trainerPredict trees f = .ok r) ∧
    (∀ (trees : List TreeNode) (f : Features), trees ≠ [] →
      ∃ v, verifyPredict trees f = .ok v) := by
  refine ⟨fun f => rfl, fun f => rfl, ?_, ?_⟩
  · intro trees f htrees
    have hpreds : (trees.map (predictTree · f)) ≠ [] := by
      simpa using htrees
    have hemp : (trees.map (predictTree · f)).isEmpty = false := by
      simp [hpreds]
    have hcl : countList ((trees.map (predictTree · f)).map (·.prediction)) ≠ [] := by
      rw [Ne, countList_eq_nil]
      simp [htrees]
    rcases firstMaxEntry_spec hcl with ⟨r, hr, _, _⟩
    have hres : trainerPredict trees f = .ok
        ⟨r.1,
         round4 (((trees.map (predictTree · f)).map (·.probability)).sum /
           ((trees.map (predictTree · f)).length : ℚ)),
         pyRound ((((trees.map (predictTree · f)).map (·.days)).sum : ℚ) /
           ((trees.map (predictTree · f)).length : ℚ))⟩ := by
      unfold trainerPredict
      dsimp only
      rw [hemp]
      simp only [Bool.false_eq_true, if_false, mostCommon1, hr, Option.map_some]
      rfl
    exact ⟨_, hres⟩
  · intro trees f htrees
    have hpreds : (trees.map (predictTree · f)) ≠ [] := by
      simpa using htrees
    have hemp : (trees.map (predictTree · f)).isEmpty = false := by
      simp [hpreds]
    have hcl : countList ((trees.map (predictTree · f)).map (·.prediction)) ≠ [] := by
      rw [Ne, countList_eq_nil]
      simp [htrees]
    rcases firstMaxEntry_spec hcl with ⟨r, hr, _, _⟩
    have hres : verifyPredict trees f = .ok
        ⟨r.1,
         round4 (((trees.map (predictTree · f)).map (·.probability)).sum /
           ((trees.map (predictTree · f)).length : ℚ)),
         pyRound ((((trees.map (predictTree · f)).map (·.days)).sum : ℚ) /
           ((trees.map (predictTree · f)).length : ℚ)),
         countList ((trees.map (predictTree · f)).map (·.prediction))⟩ := by
      unfold verifyPredict
      dsimp only
      rw [hemp]
      simp only [Bool.false_eq_true, if_false, mostCommon1, hr, Option.map_some]
      rfl
    exact ⟨_, hres⟩

/-- Witness for C10 at concrete input: a one-leaf forest predicts. -/
theorem C10_empty_forest_witness :
    (∃ r, trainerPredict [TreeNode.leaf "high" 1 5 1] ([] : Features) = .ok r) ∧
    (∃ v, verifyPredict [TreeNode.leaf "high" 1 5 1] ([] : Features) = .ok v) :=
  ⟨C10_empty_forest.2.2.1 [TreeNode.leaf "high" 1 5 1] [] (by decide),
   C10_empty_forest.2.2.2 [TreeNode.leaf "high" 1 5 1] [] (by decide)⟩

/-! ## C3: determinism of the training pipeline -/

/-- C3: two runs of the full pipeline (bootstrap draws, feature sampling,
tree building, importance normalization, serialization) over the same
training list, with draw streams that agree everywhere (the same seed),
produce byte-identical serialized documents. -/
theorem C3_determinism (g₁ g₂ : ℕ → ℕ) (n : ℕ) (data : List Sample)
    (h : ∀ i, g₁ i = g₂ i) :
    serializeSRF (fit g₁ n data) = serializeSRF (fit g₂ n data) := by
  have hg : g₁ = g₂ := funext h
  rw [hg]

/-- Witness for C3 at concrete input. -/
theorem C3_determinism_witness :
    serializeSRF (fit gId 1 c4Data) = serializeSRF (fit gId 1 c4Data) :=
  C3_determinism gId gId 1 c4Data (fun _ => rfl)


/-! ## C1: trainer / standalone-engine prediction equivalence -/

theorem lookup_isSome_mem {β : Type} (l : List (String × β)) (x : String) :
    (l.lookup x).isSome ↔ x ∈ l.map (·.1) := by
  induction l with
  | nil => simp [List.lookup]
  | cons e es ih =>
    rcases e with ⟨k, v⟩
    simp only [List.map_cons, List.mem_cons]
    by_cases hxk : x = k
    · subst hxk
      simp [List.lookup]
    · have hbeq : (x == k) = false := by
        simp [hxk]
      simp only [List.lookup, hbeq, ih]
      constructor
      · intro h
        exact Or.inr h
      · intro h
        rcases h with h | h
        · exact absurd h hxk
        · exact h

theorem bumpVote_fold (preds : List String) :
    ∀ (acc : List (String × ℕ)) (f : String → ℕ),
      (acc.map (·.1)).Nodup →
      (∀ e ∈ acc, e.2 = f e.1) →
      (∀ k, f k ≠ 0 → k ∈ acc.map (·.1)) →
      ((preds.foldl bumpVote acc).map (·.1)).Nodup ∧
      (∀ e ∈ preds.foldl bumpVote acc, e.2 = f e.1 + preds.count e.1) ∧
      (∀ k, f k + preds.count k ≠ 0 →
        k ∈ (preds.foldl bumpVote acc).map (·.1)) := by
  induction preds with
  | nil =>
    intro acc f hnd hval hdom
    refine ⟨hnd, ?_, ?_⟩
    · intro e he
      simpa using hval e he
    · intro k hk
      simp only [List.count_nil, Nat.add_zero] at hk
      exact hdom k hk
  | cons x preds ih =>
    intro acc f hnd hval hdom
    rw [List.foldl_cons]
    have hstep :
        ((bumpVote acc x).map (·.1)).Nodup ∧
        (∀ e ∈ bumpVote acc x, e.2 = f e.1 + (if e.1 = x then 1 else 0)) ∧
        (∀ k, f k + (if k = x then 1 else 0) ≠ 0 →
          k ∈ (bumpVote acc x).map (·.1)) := by
      unfold bumpVote
      by_cases hx : (acc.lookup x).isSome
      · rw [if_pos hx]
        have hkeys : (acc.map (fun e => if e.1 = x then (e.1, e.2 + 1) else e)).map (·.1)
            = acc.map (·.1) := by
          rw [List.map_map]
          apply List.map_congr_left
          intro e _
          by_cases hex : e.1 = x <;> simp [hex]
        refine ⟨by rw [hkeys]; exact hnd, ?_, ?_⟩
        · intro e he
          rcases List.mem_map.1 he with ⟨e0, he0, rfl⟩
          have hv := hval e0 he0
          by_cases hex : e0.1 = x
          · rw [if_pos hex]
            simp [hex, hv]
          · rw [if_neg hex]
            simp [hex, hv]
        · intro k hk
          rw [hkeys]
          by_cases hkx : k = x
          · subst hkx
            exact (lookup_isSome_mem acc k).1 hx
          · rw [if_neg hkx, Nat.add_zero] at hk
            exact hdom k hk
      · rw [if_neg hx]
        have hxnot : x ∉ acc.map (·.1) := by
          intro hmem
          exact hx ((lookup_isSome_mem acc x).2 hmem)
        have hfx : f x = 0 := by
          by_contra hfx
          exact hxnot (hdom x hfx)
        refine ⟨?_, ?_, ?_⟩
        · rw [List.map_append]
          simp only [List.map_cons, List.map_nil]
          rw [List.nodup_append]
          refine ⟨hnd, List.nodup_singleton x, ?_⟩
          intro a ha hb
          rcases List.mem_singleton.1 hb with rfl
          exact hxnot ha
        · intro e he
          rcases List.mem_append.1 he with he2 | he2
          · have hex : e.1 ≠ x := by
              intro hex
              exact hxnot (hex ▸ List.mem_map.2 ⟨e, he2, rfl⟩)
            rw [if_neg hex, Nat.add_zero]
            exact hval e he2
          · rcases List.mem_singleton.1 he2 with rfl
            simp [hfx]
        · intro k hk
          rw [List.map_append]
          by_cases hkx : k = x
          · subst hkx
            simp
          · rw [if_neg hkx, Nat.add_zero] at hk
            exact List.mem_append_left _ (hdom k hk)
    rcases hstep with ⟨h1, h2, h3⟩
    have hcnt : ∀ k, (x :: preds).count k =
        (if k = x then 1 else 0) + preds.count k := by
      intro k
      rw [List.count_cons]
      by_cases hkx : k = x
      · simp [hkx]
        omega
      · simp [hkx]
        exact fun h => hkx h.symm
    have hres := ih (bumpVote acc x)
      (fun k => f k + (if k = x then 1 else 0)) h1 h2 h3
    rcases hres with ⟨r1, r2, r3⟩
    refine ⟨r1, ?_, ?_⟩
    · intro e he
      have h4 := r2 e he
      dsimp only at h4
      rw [h4, hcnt e.1]
      omega
    · intro k hk
      rw [hcnt k] at hk
      have h5 := r3 k
      dsimp only at h5
      apply h5
      omega

/-- Under a strict majority, `Counter.most_common(1)` returns the majority
class. -/
theorem mostCommon1_of_dominant {preds : List String} {c : String}
    (hc : 0 < preds.count c)
    (hdom : ∀ c2, c2 ≠ c → preds.count c2 < preds.count c) :
    mostCommon1 (countList preds) = some c := by
  have hmem : (c, preds.count c) ∈ countList preds :=
    countList_mem_of_mem (List.count_pos_iff.1 hc)
  have hub : ∀ e ∈ countList preds, e.2 ≤ preds.count c := by
    intro e he
    rcases countList_mem_val he with ⟨hv, _⟩
    rw [hv]
    by_cases hec : e.1 = c
    · rw [hec]
    · exact le_of_lt (hdom e.1 hec)
  have huniq : ∀ e ∈ countList preds, e.2 = preds.count c → e.1 = c := by
    intro e he hev
    rcases countList_mem_val he with ⟨hv, _⟩
    by_contra hec
    have := hdom e.1 hec
    omega
  exact firstMaxEntry_dominant hmem hub huniq

/-- Under a strict majority, the API's `max(votes, key=votes.get)` also
returns the majority class. -/
theorem apiMax_of_dominant {preds : List String} {c : String}
    (hc : 0 < preds.count c)
    (hdom : ∀ c2, c2 ≠ c → preds.count c2 < preds.count c) :
    ((firstMaxEntry (preds.foldl bumpVote
        [("low", 0), ("medium", 0), ("high", 0)])).map (·.1)) = some c := by
  have h0 := bumpVote_fold preds [("low", 0), ("medium", 0), ("high", 0)]
    (fun _ => 0) (by decide) (by intro e he; fin_cases he <;> rfl)
    (by intro k hk; simp at hk)
  rcases h0 with ⟨hnd, hval0, hdomk0⟩
  set votes := preds.foldl bumpVote [("low", 0), ("medium", 0), ("high", 0)]
    with hv
  have hval : ∀ e ∈ votes, e.2 = preds.count e.1 := by
    intro e he
    simpa using hval0 e he
  have hdomk : ∀ k, preds.count k ≠ 0 → k ∈ votes.map (·.1) := by
    intro k hk
    apply hdomk0 k
    simpa using hk
  have hmemk : c ∈ votes.map (·.1) := hdomk c (by omega)
  rcases List.mem_map.1 hmemk with ⟨e, he, hec⟩
  have hmem : (c, preds.count c) ∈ votes := by
    have hv2 : e.2 = preds.count c := by
      rw [hval e he, hec]
    have hee : e = (c, preds.count c) := by
      rcases e with ⟨k, v⟩
      dsimp only at hec hv2
      rw [hec, hv2]
    rw [← hee]
    exact he
  have hub : ∀ e2 ∈ votes, e2.2 ≤ preds.count c := by
    intro e2 he2
    rw [hval e2 he2]
    by_cases hec2 : e2.1 = c
    · rw [hec2]
    · exact le_of_lt (hdom e2.1 hec2)
  have huniq : ∀ e2 ∈ votes, e2.2 = preds.count c → e2.1 = c := by
    intro e2 he2 hev
    rw [hval e2 he2] at hev
    by_contra hec2
    have := hdom e2.1 hec2
    omega
  exact firstMaxEntry_dominant hmem hub huniq

/-- C1 (amended): on every forest and feature vector, `verify_model.predict`
produces exactly the trainer's prediction (identical tie-breaking); the API
engine produces the identical `failure_probability` and
`estimated_days_to_failure`, and the identical `risk_level` whenever some
class is the strict majority of the leaf votes; on ties the two engines'
tie-breaks differ. -/
theorem C1_engine_equivalence (trees : List TreeNode) (f : Features) :
    ((verifyPredict trees f).map VPred.core = trainerPredict trees f) ∧
    (∀ c, 0 < (leafRisks trees f).count c →
      (∀ c2, c2 ≠ c →
        (leafRisks trees f).count c2 < (leafRisks trees f).count c) →
      apiPredict trees f = trainerPredict trees f) := by
  constructor
  · unfold verifyPredict trainerPredict
    dsimp only
    by_cases hemp : (trees.map (predictTree · f)).isEmpty
    · rw [hemp]
      rfl
    · rw [Bool.not_eq_true] at hemp
      rw [hemp]
      simp only [Bool.false_eq_true, if_false]
      cases hmc : mostCommon1 (countList
          ((trees.map (predictTree · f)).map (·.prediction))) with
      | none => rfl
      | some risk => rfl
  · intro c hc hdom
    have hpreds : (trees.map (predictTree · f)) ≠ [] := by
      intro h
      rw [leafRisks, h] at hc
      simp at hc
    have hemp : (trees.map (predictTree · f)).isEmpty = false := by
      simpa using hpreds
    have hmc : mostCommon1 (countList
        ((trees.map (predictTree · f)).map (·.prediction))) = some c :=
      mostCommon1_of_dominant hc hdom
    have hapi : ((firstMaxEntry
        (((trees.map (predictTree · f)).map (·.prediction)).foldl bumpVote
          [("low", 0), ("medium", 0), ("high", 0)])).map (·.1)) = some c :=
      apiMax_of_dominant hc hdom
    unfold apiPredict trainerPredict
    dsimp only
    rw [hemp]
    have hfold : (trees.map (predictTree · f)).foldl
        (fun v p => bumpVote v p.prediction)
        [("low", 0), ("medium", 0), ("high", 0)] =
        ((trees.map (predictTree · f)).map (·.prediction)).foldl bumpVote
        [("low", 0), ("medium", 0), ("high", 0)] := by
      simp only [List.foldl_map]
    rw [hfold, hapi]
    simp only [Bool.false_eq_true, if_false, hmc]
    rfl

/-- The two bootstrap samples drawn by `g2` are `[high, high]` then
`[low, low]`, producing a trained forest of one all-`high` and one
all-`low` leaf. -/
def c1Data : List Sample :=
  [⟨[("asset_age_months", 1)], "high", 9/10, 5⟩,
   ⟨[("asset_age_months", 2)], "low", 1/10, 200⟩]

/-- Draw stream for the C1 counterexample. -/
def g2 : ℕ → ℕ := fun i => if i < 2 then 0 else 1

/-- Counterexample to C1 as stated: on a trained two-tree forest whose leaf
votes tie 1-1 between `high` and `low`, the trainer's `predict` (and
`verify_model`) answers `high` (first-encountered tie-break of
`Counter.most_common`) while the API engine answers `low` (first maximal
key of the vote dict in its fixed insertion order `low, medium, high`):
the standalone API engine is not numerically identical to the trainer on
this trained forest and feature vector. -/
theorem C1_counterexample :
    trainerPredict (fit g2 2 c1Data).trees [] =
      .ok ⟨"high", 1/2, 102⟩ ∧
    apiPredict (fit g2 2 c1Data).trees [] =
      .ok ⟨"low", 1/2, 102⟩ ∧
    ("high" : String) ≠ "low" :=
  ⟨by with_unfolding_all rfl, by with_unfolding_all rfl, by decide⟩

/-- Witness for the amended C1 at concrete input: a one-leaf forest has a
strict majority, and all three engines agree on it. -/
theorem C1_engine_equivalence_witness :
    ((verifyPredict [TreeNode.leaf "high" 1 5 1] ([] : Features)).map VPred.core
      = trainerPredict [TreeNode.leaf "high" 1 5 1] ([] : Features)) ∧
    apiPredict [TreeNode.leaf "high" 1 5 1] ([] : Features)
      = trainerPredict [TreeNode.leaf "high" 1 5 1] ([] : Features) :=
  ⟨(C1_engine_equivalence [TreeNode.leaf "high" 1 5 1] []).1,
   (C1_engine_equivalence [TreeNode.leaf "high" 1 5 1] []).2 "high"
     (by with_unfolding_all decide)
     (by
       intro c2 hne
       have hlr : (leafRisks [TreeNode.leaf "high" 1 5 1] ([] : Features))
           = ["high"] := by
         with_unfolding_all rfl
       rw [hlr]
       have hbeq : (("high" : String) == c2) = false := by
         simp [Ne.symm hne]
       simp [List.count_cons, List.count_nil, hbeq])⟩

/-! ## C8: malformed forest documents -/

theorem except_bind_ok {α β : Type} {m : Except String α}
    {g : α → Except String β} {r : β}
    (h : (m >>= g) = .ok r) : ∃ a, m = .ok a ∧ g a = .ok r := by
  cases m with
  | error e =>
    exfalso
    have he : ((Except.error e : Except String α) >>= g) =
        (Except.error e : Except String β) := rfl
    rw [he] at h
    cases h
  | ok a =>
    refine ⟨a, rfl, ?_⟩
    have he : ((Except.ok a : Except String α) >>= g) = g a := rfl
    rw [← he]
    exact h

theorem mapE_ok {α β : Type} {g : α → Except String β} :
    ∀ {xs : List α} {ys : List β}, mapE g xs = .ok ys →
      (∀ x ∈ xs, ∃ y ∈ ys, g x = .ok y) ∧ (xs = [] ↔ ys = []) := by
  intro xs
  induction xs with
  | nil =>
    intro ys h
    rw [mapE] at h
    cases h
    exact ⟨by simp, by simp⟩
  | cons x xs ih =>
    intro ys h
    rw [mapE] at h
    rcases except_bind_ok h with ⟨y, hy, h2⟩
    rcases except_bind_ok h2 with ⟨ys2, hys2, h3⟩
    cases h3
    rcases ih hys2 with ⟨hmem, _⟩
    refine ⟨?_, by simp⟩
    intro x2 hx2
    rcases List.mem_cons.1 hx2 with rfl | hx2
    · exact ⟨y, List.mem_cons_self _ _, hy⟩
    · rcases hmem x2 hx2 with ⟨y2, hy2, hg⟩
      exact ⟨y2, List.mem_cons_of_mem _ hy2, hg⟩

/-- A successful raw traversal always stops at a node tagged `leaf`. -/
theorem predictTreeRaw_type :
    ∀ {t : RawNode} {f : Features} {n : RawNode},
      predictTreeRaw t f = .ok n → n.typeF = some "leaf" := by
  intro t
  induction t with
  | missing =>
    intro f n h
    cases h
  | node ty pr pb dy ft th l r ihl ihr =>
    intro f n h
    cases ty with
    | none => cases h
    | some ty0 =>
      rw [predictTreeRaw.eq_def] at h
      dsimp only at h
      by_cases hty : ty0 = "leaf"
      · rw [if_pos hty] at h
        cases h
        simp [RawNode.typeF, hty]
      · rw [if_neg hty] at h
        cases ft with
        | none => cases h
        | some feat =>
          cases th with
          | none => cases h
          | some thr =>
            dsimp only at h
            by_cases hlt : fget f feat < thr
            · rw [if_pos hlt] at h
              cases l with
              | missing => cases h
              | node a b c d e f2 g2 h2 => exact ihl h
            · rw [if_neg hlt] at h
              cases r with
              | missing => cases h
              | node a b c d e f2 g2 h2 => exact ihr h

/-- C8 (amended, the part that holds): the `verify_model` engine never
substitutes defaults for structural fields — whenever its prediction on a
raw document succeeds, the document is a non-empty forest and the traversal
of every tree reached a node tagged `leaf` whose `prediction`,
`probability` and `days` fields are all literally present (any missing
field that is reached raises a `KeyError` instead). -/
theorem C8_verify_no_defaults (trees : List RawNode) (f : Features) (r : VPred)
    (h : verifyPredictRaw trees f = .ok r) :
    trees ≠ [] ∧
    ∀ t ∈ trees, ∃ n, predictTreeRaw t f = Except.ok n ∧
      n.typeF = some "leaf" ∧ n.predictionF.isSome = true ∧
      n.probabilityF.isSome = true ∧ n.daysF.isSome = true := by
  unfold verifyPredictRaw at h
  rcases except_bind_ok h with ⟨preds, hpreds, h2⟩
  rcases except_bind_ok h2 with ⟨risks, hrisks, h3⟩
  rcases except_bind_ok h3 with ⟨probs, hprobs, h4⟩
  have hne : preds.isEmpty = false := by
    by_contra hcon
    rw [Bool.not_eq_false] at hcon
    rw [if_pos hcon] at h4
    cases h4
  rw [hne] at h4
  simp only [Bool.false_eq_true, if_false] at h4
  rcases mapE_ok hpreds with ⟨hpmem, hpnil⟩
  rcases mapE_ok hrisks with ⟨hrmem, _⟩
  rcases mapE_ok hprobs with ⟨hbmem, _⟩
  rcases except_bind_ok h4 with ⟨days, hdays, _⟩
  rcases mapE_ok hdays with ⟨hdmem, _⟩
  constructor
  · intro hnil
    rw [hpnil.1 hnil] at hne
    cases hne
  · intro t ht
    rcases hpmem t ht with ⟨n, hn, hok⟩
    refine ⟨n, hok, predictTreeRaw_type hok, ?_, ?_, ?_⟩
    · rcases hrmem n hn with ⟨y, _, hy⟩
      cases hpr : n.predictionF with
      | none => rw [hpr] at hy; cases hy
      | some v => rfl
    · rcases hbmem n hn with ⟨y, _, hy⟩
      cases hpr : n.probabilityF with
      | none => rw [hpr] at hy; cases hy
      | some v => rfl
    · rcases hdmem n hn with ⟨y, _, hy⟩
      cases hpr : n.daysF with
      | none => rw [hpr] at hy; cases hy
      | some v => rfl

/-- A leaf-tagged node with every payload field missing. -/
def leafMissing : RawNode :=
  RawNode.node (some "leaf") none none none none none .missing .missing

/-- Counterexample to C8 as stated: on a document violating the format (a
leaf node missing the required `prediction`, `probability` and `days`
fields) the API inference engine does not fail with a format error — it
substitutes the guessed defaults `medium` / `0.5` / `100` and returns a
prediction, while the `verify_model` engine raises the `KeyError`. -/
theorem C8_counterexample :
    apiPredictRaw [leafMissing] [] = .ok ⟨"medium", 1/2, 100⟩ ∧
    verifyPredictRaw [leafMissing] [] = .error "KeyError: prediction" :=
  ⟨by with_unfolding_all rfl, by with_unfolding_all rfl⟩

/-- A fully-populated leaf node. -/
def leafFull : RawNode :=
  RawNode.node (some "leaf") (some "high") (some 1) (some 5)
    none none .missing .missing

/-- Witness for the amended C8 at concrete input: a well-formed document
succeeds, and the theorem recovers the presence of all its leaf fields. -/
theorem C8_verify_no_defaults_witness :
    [leafFull] ≠ ([] : List RawNode) ∧
    ∀ t ∈ [leafFull], ∃ n, predictTreeRaw t [] = Except.ok n ∧
      n.typeF = some "leaf" ∧ n.predictionF.isSome = true ∧
      n.probabilityF.isSome = true ∧ n.daysF.isSome = true :=
  C8_verify_no_defaults [leafFull] [] ⟨"high", 1, 5, [("high", 1)]⟩
    (by with_unfolding_all rfl)

/-! ## C9: evaluator metrics -/

/-- All leaf prediction labels occurring in a tree. -/
def leafPredictions : TreeNode → List String
  | .leaf p _ _ _ => [p]
  | .split _ _ l r => leafPredictions l ++ leafPredictions r

theorem predictTree_mem_leafPredictions (t : TreeNode) (f : Features) :
    (predictTree t f).prediction ∈ leafPredictions t := by
  induction t with
  | leaf p pb dy s => simp [predictTree, leafPredictions]
  | split ft th l r ihl ihr =>
    rw [predictTree]
    by_cases hlt : fget f ft < th
    · rw [if_pos hlt]
      exact List.mem_append_left _ ihl
    · rw [if_neg hlt]
      exact List.mem_append_right _ ihr

/-- On a non-empty forest `verify_model.predict` succeeds with a risk label
that is one of the forest's leaf predictions. -/
theorem verifyPredict_ok_risk (trees : List TreeNode) (f : Features)
    (htrees : trees ≠ []) :
    ∃ v, verifyPredict trees f = .ok v ∧
      ∃ t ∈ trees, v.risk_level = (predictTree t f).prediction := by
  have hpreds : (trees.map (predictTree · f)) ≠ [] := by
    simpa using htrees
  have hemp : (trees.map (predictTree · f)).isEmpty = false := by
    simpa using hpreds
  have hcl : countList ((trees.map (predictTree · f)).map (·.prediction)) ≠ [] := by
    rw [Ne, countList_eq_nil]
    simp [htrees]
  rcases firstMaxEntry_spec hcl with ⟨r, hr, hrmem, _⟩
  have hres : verifyPredict trees f = .ok
      ⟨r.1,
       round4 (((trees.map (predictTree · f)).map (·.probability)).sum /
         ((trees.map (predictTree · f)).length : ℚ)),
       pyRound ((((trees.map (predictTree · f)).map (·.days)).sum : ℚ) /
         ((trees.map (predictTree · f)).length : ℚ)),
       countList ((trees.map (predictTree · f)).map (·.prediction))⟩ := by
    unfold verifyPredict
    dsimp only
    rw [hemp]
    simp only [Bool.false_eq_true, if_false, mostCommon1, hr, Option.map_some]
    rfl
  refine ⟨_, hres, ?_⟩
  rcases countList_mem_val hrmem with ⟨_, hmem⟩
  rcases List.mem_map.1 hmem with ⟨lf, hlf, hfst⟩
  rcases List.mem_map.1 hlf with ⟨t, ht, rfl⟩
  exact ⟨t, ht, hfst.symm⟩

theorem lookup_mem {β : Type} :
    ∀ {l : List (String × β)} {x : String} {v : β},
      l.lookup x = some v → (x, v) ∈ l := by
  intro l
  induction l with
  | nil => intro x v h; cases h
  | cons e es ih =>
    intro x v h
    rcases e with ⟨k, w⟩
    by_cases hxk : x = k
    · subst hxk
      rw [List.lookup_cons_self] at h
      cases h
      exact List.mem_cons_self _ _
    · have hbeq : (x == k) = false := by simp [hxk]
      rw [List.lookup, hbeq] at h
      exact List.mem_cons_of_mem _ (ih h)

theorem mapE_ok_of_forall {α β : Type} {g : α → Except String β} (P : β → Prop) :
    ∀ {xs : List α}, (∀ x ∈ xs, ∃ y, g x = .ok y ∧ P y) →
      ∃ ys, mapE g xs = .ok ys ∧ (∀ y ∈ ys, P y) ∧ (ys = [] ↔ xs = []) := by
  intro xs
  induction xs with
  | nil =>
    intro _
    exact ⟨[], rfl, by simp, by simp⟩
  | cons x xs ih =>
    intro hall
    rcases hall x (List.mem_cons_self _ _) with ⟨y, hy, hPy⟩
    rcases ih (fun z hz => hall z (List.mem_cons_of_mem _ hz)) with
      ⟨ys, hys, hPys, _⟩
    refine ⟨y :: ys, ?_, ?_, by simp⟩
    · rw [mapE, hy]
      have h1 : ((Except.ok y : Except String β) >>=
          (fun y2 => mapE g xs >>= fun ys2 => Except.ok (y2 :: ys2))) =
          (mapE g xs >>= fun ys2 => Except.ok (y :: ys2)) := rfl
      rw [h1, hys]
      rfl
    · intro z hz
      rcases List.mem_cons.1 hz with rfl | hz
      · exact hPy
      · exact hPys z hz

/-- `d[k] += 1` succeeds exactly on present keys and preserves the key
list. -/
theorem bumpFixed_ok {m : List (String × ℕ)} {k : String}
    (h : k ∈ m.map (·.1)) :
    ∃ m2, bumpFixed m k = .ok m2 ∧ m2.map (·.1) = m.map (·.1) := by
  have hsome : (m.lookup k).isSome := (lookup_isSome_mem m k).2 h
  refine ⟨_, by rw [bumpFixed, if_pos hsome], ?_⟩
  rw [List.map_map]
  apply List.map_congr_left
  intro e _
  by_cases hek : e.1 = k <;> simp [hek]

theorem lookupE_ok {β : Type} {m : List (String × β)} {k : String}
    (h : k ∈ m.map (·.1)) :
    ∃ v, lookupE m k = .ok v ∧ (k, v) ∈ m := by
  have hsome : (m.lookup k).isSome := (lookup_isSome_mem m k).2 h
  rcases Option.isSome_iff_exists.1 hsome with ⟨v, hv⟩
  refine ⟨v, ?_, lookup_mem hv⟩
  rw [lookupE, hv]

/-- The key-set invariant maintained by the evaluation loop. -/
def KeysOK (st : EvalState) : Prop :=
  st.risk_total.map (·.1) = classList ∧
  st.risk_correct.map (·.1) = classList ∧
  st.confusion.map (·.1) = classList ∧
  ∀ e ∈ st.confusion, e.2.map (·.1) = classList

theorem initEvalState_keysOK : KeysOK initEvalState := by
  refine ⟨rfl, rfl, rfl, ?_⟩
  intro e he
  rcases List.mem_cons.1 he with rfl | he
  · rfl
  · rcases List.mem_cons.1 he with rfl | he
    · rfl
    · rcases List.mem_cons.1 he with rfl | he
      · rfl
      · simp at he

theorem ok_bind {α β : Type} (a : α) (g : α → Except String β) :
    ((Except.ok a : Except String α) >>= g) = g a := rfl

theorem evalStep_ok {st : EvalState} {a p : String} (hinv : KeysOK st)
    (ha : a ∈ classList) (hp : p ∈ classList) :
    ∃ st2, evalStep st a p = .ok st2 ∧ KeysOK st2 := by
  rcases hinv with ⟨h1, h2, h3, h4⟩
  rcases bumpFixed_ok (m := st.risk_total) (k := a) (by rw [h1]; exact ha) with
    ⟨rt, hrt, hrtk⟩
  rcases lookupE_ok (m := st.confusion) (k := a) (by rw [h3]; exact ha) with
    ⟨row, hrow, hrowmem⟩
  rcases bumpFixed_ok (m := row) (k := p)
    (by rw [h4 (a, row) hrowmem]; exact hp) with ⟨row2, hrow2, hrow2k⟩
  have hcfk : (st.confusion.map
      (fun e => if e.1 = a then (e.1, row2) else e)).map (·.1)
      = classList := by
    rw [List.map_map]
    rw [show ((fun x => x.1) ∘ fun e : String × List (String × ℕ) =>
        if e.1 = a then (e.1, row2) else e) = fun e : String × List (String × ℕ) => e.1 by
      funext e
      by_cases hea : e.1 = a <;> simp [hea]]
    exact h3
  have hcfrows : ∀ e ∈ st.confusion.map
      (fun e => if e.1 = a then (e.1, row2) else e),
      e.2.map (·.1) = classList := by
    intro e he
    rcases List.mem_map.1 he with ⟨e0, he0, rfl⟩
    by_cases hea : e0.1 = a
    · rw [if_pos hea]
      dsimp only
      rw [hrow2k, h4 (a, row) hrowmem]
    · rw [if_neg hea]
      exact h4 e0 he0
  by_cases hpa : p = a
  · rcases bumpFixed_ok (m := st.risk_correct) (k := a) (by rw [h2]; exact ha)
      with ⟨rc, hrc, hrck⟩
    refine ⟨⟨st.correct + 1, rc, rt,
      st.confusion.map (fun e => if e.1 = a then (e.1, row2) else e)⟩, ?_, ?_⟩
    · simp only [evalStep, hrt, hrow, hrow2, hrc, ok_bind, if_pos hpa]
    · exact ⟨hrtk.trans h1, hrck.trans h2, hcfk, hcfrows⟩
  · refine ⟨⟨st.correct, st.risk_correct, rt,
      st.confusion.map (fun e => if e.1 = a then (e.1, row2) else e)⟩, ?_, ?_⟩
    · simp only [evalStep, hrt, hrow, hrow2, ok_bind]
      rw [if_neg hpa]
    · exact ⟨hrtk.trans h1, h2, hcfk, hcfrows⟩

theorem foldE_ok (pairs : List (String × String)) :
    ∀ st, KeysOK st → (∀ pr ∈ pairs, pr.1 ∈ classList ∧ pr.2 ∈ classList) →
      ∃ st2, foldE (fun s pr => evalStep s pr.1 pr.2) st pairs = .ok st2 ∧
        KeysOK st2 := by
  induction pairs with
  | nil =>
    intro st hst _
    exact ⟨st, rfl, hst⟩
  | cons pr pairs ih =>
    intro st hst hall
    rcases hall pr (List.mem_cons_self _ _) with ⟨ha, hp⟩
    rcases evalStep_ok hst ha hp with ⟨st1, hst1, hst1k⟩
    rcases ih st1 hst1k (fun z hz => hall z (List.mem_cons_of_mem _ hz)) with
      ⟨st2, hst2, hst2k⟩
    refine ⟨st2, ?_, hst2k⟩
    rw [foldE, hst1, ok_bind]
    exact hst2

/-- C9 (amended): on every non-empty test set whose labels and forest leaf
predictions are among the three classes, the evaluator succeeds — and the
division-by-zero guards behave as claimed: a class with zero actual samples
has its per-class accuracy line omitted and recall `0`, a class with zero
predicted samples has precision `0`, and F1 is `2PR/(P+R)` with fallback
`0` when `P+R = 0`.  (On a present-but-empty test set the evaluator
instead raises; see the counterexample.) -/
theorem C9_metrics (trees : List TreeNode) (rows : List Row)
    (htrees : trees ≠ []) (hrows : rows ≠ [])
    (hlab : ∀ row ∈ rows, row.riskLevel ∈ classList)
    (hpred : ∀ t ∈ trees, ∀ s ∈ leafPredictions t, s ∈ classList) :
    ∃ rep, evaluateModel trees rows = .ok rep ∧
      (∀ lv, getCount rep.state.risk_total lv = 0 →
        lv ∉ rep.perClassAcc.map (·.1)) ∧
      (∀ e ∈ rep.prf,
        (predTotalOf rep.state e.1 = 0 → e.2.1 = 0) ∧
        (getCount rep.state.risk_total e.1 = 0 → e.2.2.1 = 0) ∧
        (e.2.1 + e.2.2.1 = 0 → e.2.2.2 = 0) ∧
        (0 < e.2.1 + e.2.2.1 →
          e.2.2.2 = 2 * e.2.1 * e.2.2.1 / (e.2.1 + e.2.2.1))) := by
  have hpairs : ∀ row ∈ rows, ∃ pr,
      (do
        let pred ← verifyPredict trees row.features
        Except.ok (row.riskLevel, pred.risk_level)) = Except.ok pr ∧
      (pr.1 ∈ classList ∧ pr.2 ∈ classList) := by
    intro row hrow
    rcases verifyPredict_ok_risk trees row.features htrees with ⟨v, hv, t, ht, hvr⟩
    refine ⟨(row.riskLevel, v.risk_level), ?_, hlab row hrow, ?_⟩
    · rw [hv, ok_bind]
    · rw [hvr]
      exact hpred t ht _ (predictTree_mem_leafPredictions t row.features)
  rcases mapE_ok_of_forall (fun pr : String × String =>
    pr.1 ∈ classList ∧ pr.2 ∈ classList) hpairs with
    ⟨pairs, hpairsE, hpairsP, _⟩
  rcases foldE_ok pairs initEvalState initEvalState_keysOK hpairsP with
    ⟨st, hst, _⟩
  have htot : ¬ (rows.length = 0) := by
    simp [hrows]
  have hev : ∃ rep, evaluateModel trees rows = .ok rep ∧
      rep.state = st ∧
      rep.perClassAcc = classList.filterMap (fun lv =>
        if 0 < getCount st.risk_total lv then
          some (lv, (getCount st.risk_correct lv : ℚ) /
            (getCount st.risk_total lv : ℚ) * 100)
        else none) ∧
      rep.prf = classList.map (fun lv =>
        let predTotal := predTotalOf st lv
        let precision : ℚ :=
          if 0 < predTotal then
            (getCount ((st.confusion.lookup lv).getD []) lv : ℚ) /
              (predTotal : ℚ) * 100
          else 0
        let rcall : ℚ :=
          if 0 < getCount st.risk_total lv then
            (getCount st.risk_correct lv : ℚ) /
              (getCount st.risk_total lv : ℚ) * 100
          else 0
        let f1 : ℚ :=
          if 0 < precision + rcall then
            2 * precision * rcall / (precision + rcall)
          else 0
        (lv, precision, rcall, f1)) := by
    unfold evaluateModel
    rw [hpairsE, ok_bind, hst, ok_bind]
    dsimp only
    rw [if_neg htot]
    exact ⟨_, rfl, rfl, rfl, rfl⟩
  rcases hev with ⟨rep, hrep, hrst, hrpc, hrprf⟩
  refine ⟨rep, hrep, ?_, ?_⟩
  · intro lv hcnt hmem
    rw [hrpc] at hmem
    rcases List.mem_map.1 hmem with ⟨e, he, rfl⟩
    rcases List.mem_filterMap.1 he with ⟨lv2, _, hsome⟩
    rw [hrst] at hcnt
    by_cases hc2 : 0 < getCount st.risk_total lv2
    · rw [if_pos hc2] at hsome
      cases hsome
      rw [hcnt] at hc2
      exact absurd hc2 (by simp)
    · rw [if_neg hc2] at hsome
      cases hsome
  · intro e he
    rw [hrprf] at he
    rcases List.mem_map.1 he with ⟨lv, _, rfl⟩
    rw [hrst]
    dsimp only
    refine ⟨?_, ?_, ?_, ?_⟩
    · intro hpt
      rw [hpt]
      simp
    · intro hct
      rw [hct]
      simp
    · intro hsum
      rw [if_neg (by rw [hsum]; simp)]
    · intro hsum
      rw [if_pos hsum]

/-- Counterexample to C9 as stated: on a present-but-empty test set the
evaluator computes `correct / total` with `total = 0` and raises
`ZeroDivisionError`; it does not report the overall accuracy as
"no data" (that message is printed only when the test file is absent). -/
theorem C9_counterexample :
    evaluateModel [TreeNode.leaf "high" 1 5 1] [] =
      .error "ZeroDivisionError" := by
  with_unfolding_all rfl

/-- Witness for the amended C9 at concrete input, the specification's
Scenario D: a one-row test set with no `high` samples evaluates without
raising. -/
theorem C9_metrics_witness :
    ∃ rep, evaluateModel [TreeNode.leaf "low" (1/2) 10 1] [⟨[], "low"⟩] =
        .ok rep ∧
      (∀ lv, getCount rep.state.risk_total lv = 0 →
        lv ∉ rep.perClassAcc.map (·.1)) ∧
      (∀ e ∈ rep.prf,
        (predTotalOf rep.state e.1 = 0 → e.2.1 = 0) ∧
        (getCount rep.state.risk_total e.1 = 0 → e.2.2.1 = 0) ∧
        (e.2.1 + e.2.2.1 = 0 → e.2.2.2 = 0) ∧
        (0 < e.2.1 + e.2.2.1 →
          e.2.2.2 = 2 * e.2.1 * e.2.2.1 / (e.2.1 + e.2.2.1))) :=
  C9_metrics [TreeNode.leaf "low" (1/2) 10 1] [⟨[], "low"⟩]
    (by decide) (by decide)
    (by intro row hrow; fin_cases hrow; decide)
    (by
      intro t ht
      fin_cases ht
      intro s hs
      fin_cases hs
      decide)

end FixItNow
